import Mathlib

/-!
# SketchUpSharp — verification of the graph reconstruction engine

Shallow embedding of `SketchUpNET/SketchUpNET.cpp` (the `SketchUp` managed
class): the reference Resolver (`FixRefs` over `Component`s and `Group`s),
the material-inheritance Propagator (`FixMaterialRefs`), the `LoadModel`
pipeline, and the save operations (`SaveAs`, `AppendToModel`,
`WriteNewModel`).

Modelling conventions:
* The flat entity records (`Material`, `Surface`, `Instance`, `Component`,
  `Group`, `Layer`, `Edge`, `Curve`) live in companion headers that are not
  part of this repository snapshot; their fields are modelled from the spec,
  restricted to the fields the code in `SketchUpNET.cpp` reads or writes
  (plus identifying names).  An `Instance`'s `Parent` object reference is
  modelled as an `Option String` holding the guid of the owning definition
  (`Instance.Parent` is only ever assigned `Components[ParentID]`, so the
  guid determines the reference).
* .NET `Dictionary<String, _>` objects are modelled as association lists
  with first-match lookup; `Dictionary.Add` (which throws on a duplicate
  key) is modelled as an `Option`-returning insertion.
* The recursion of `FixRefs` is not structurally terminating (the C++ code
  recurses unconditionally), so it is embedded with an explicit recursion
  budget (`fuel`): every recursive step consumes one unit, a result with
  `ok = false` means the budget was exhausted.  A run of the real code
  terminates iff some finite budget suffices, i.e. iff some `fuel` yields
  `ok = true`.
* Each entered `FixRefs` invocation logs the guid of the definition whose
  instance list it iterates in a `trace`; this instruments "the definition's
  instance expansion is visited" without altering the computed state.
-/

set_option autoImplicit false

namespace SketchUpNET

/-- Modelled from the spec: material record (`Material.h` is not in the
repository snapshot).  `name` is the dictionary key; the empty string is the
"unset" sentinel.  Colour/alpha/texture are carried opaquely. -/
structure Material where
  name : String
  colour : Nat
  alpha : Nat
  texture : String
deriving DecidableEq, Repr

/-- Modelled from the spec: layer record (`Layer.h` is not in the snapshot). -/
structure Layer where
  name : String
  visible : Bool
deriving DecidableEq, Repr

/-- Modelled from the spec: edge record; geometry is omitted because no
operation in `SketchUpNET.cpp` reads it. -/
structure Edge where
  layerName : String
deriving DecidableEq, Repr

/-- Modelled from the spec: curve record; geometry is omitted because no
operation in `SketchUpNET.cpp` reads it. -/
structure Curve where
  layerName : String
deriving DecidableEq, Repr

/-- Modelled from the spec: surface record (`Surface.h` is not in the
snapshot).  Only the two material slots are read or written by
`FixMaterialRefs`; the geometry loops are omitted. -/
structure Surface where
  frontMaterial : Material
  backMaterial : Material
  layerName : String
deriving DecidableEq, Repr

/-- Modelled from the spec: instance record (`Instance.h` is not in the
snapshot).  `parentID` is the identifier captured at extraction time;
`parent` is the mutable `Parent` link, unresolved (`none`) until the
resolver assigns `Components[parentID]`, modelled by the guid.  The
transform and material slot are omitted: no modelled operation touches
them. -/
structure Inst where
  parentID : String
  parent : Option String
deriving DecidableEq, Repr

/-- Modelled from the spec: component definition record (`Component.h` is
not in the snapshot): a guid and the list of instances the definition
owns. -/
structure Component where
  guid : String
  instances : List Inst
deriving DecidableEq, Repr

/-- Modelled from the spec: group record (`Group.h` is not in the
snapshot): material slot, owned surfaces, nested groups, owned
instances. -/
structure Group where
  name : String
  material : Material
  surfaces : List Surface
  groups : List Group
  instances : List Inst

/-- The model's `Components` dictionary (`Dictionary<String, Component^>`),
as an association list with first-match lookup. -/
abbrev Components := List (String × Component)

/-- The model's `Materials` dictionary (`Dictionary<String, Material^>`). -/
abbrev MDict := List (String × Material)

/-- Evaluation of `Dictionary->ContainsKey(k)` on a string-keyed dictionary. -/
def containsKey {α : Type} (cs : List (String × α)) (k : String) : Bool :=
  cs.any (fun kc => kc.1 == k)

/-- Lookup `Components[k]` (first matching entry, as in a .NET dictionary). -/
def getComp (cs : Components) (k : String) : Option Component :=
  (cs.find? (fun kc => kc.1 == k)).map (fun kc => kc.2)

/-- The instance list of `Components[g]` (empty when `g` is not a key). -/
def instsOf (cs : Components) (g : String) : List Inst :=
  match getComp cs g with
  | none => []
  | some c => c.instances

/-- The `ParentID`s of the instances of `Components[g]`, in iteration
order.  `ParentID` fields are never mutated, so this sequence is the
loop-iteration snapshot of `FixRefs`. -/
def pidsOf (cs : Components) (g : String) : List String :=
  (instsOf cs g).map (fun i => i.parentID)

/-- The iteration items of `for each (Instance^ var in comp->Instances)`:
the position of each instance paired with its (immutable) `ParentID`. -/
def instIdx (cs : Components) (g : String) : List (Nat × String) :=
  (pidsOf cs g).enum

/-- Assign `Parent` of the `j`-th instance of a list:
`var->Parent = Components[var->ParentID]`, keeping the guid. -/
def setParentAt : List Inst → Nat → List Inst
  | [], _ => []
  | i :: rest, 0 => { i with parent := some i.parentID } :: rest
  | i :: rest, Nat.succ j => i :: setParentAt rest j

/-- The heap effect of `var->Parent = ...` for the `j`-th instance of the
definition stored at key `g` (first matching dictionary entry, matching the
object `Components[g]` denotes). -/
def setInstParent : Components → String → Nat → Components
  | [], _, _ => []
  | kc :: rest, g, j =>
    if kc.1 == g then
      (kc.1, { kc.2 with instances := setParentAt kc.2.instances j }) :: rest
    else
      kc :: setInstParent rest g j

/-- Result of a (budgeted) `FixRefs` computation: the mutated `Components`
state, the trace of entered invocations (by definition guid), and whether
the computation completed within the budget. -/
structure RunResult where
  comps : Components
  trace : List String
  ok : Bool
deriving DecidableEq, Repr

/-- The loop body of `void FixRefs(Component^ comp)` (SketchUpNET.cpp
416–428), iterating the remaining `items` of definition `g`'s instance
list: for each instance, if its `ParentID` is a key of `Components`, assign
its `Parent` and recurse into `FixRefs(Components[ParentID])`.  There is no
visited set in the source; recursion is unconditional.  One unit of `fuel`
is consumed per loop step and per recursive descent, so the real (unbudgeted)
recursion terminates iff some finite `fuel` returns `ok = true`. -/
def fixRefsGo : Nat → Components → String → List (Nat × String) → RunResult
  | 0, cs, _, _ => ⟨cs, [], false⟩
  | Nat.succ f, cs, g, items =>
    match items with
    | [] => ⟨cs, [], true⟩
    | (j, pid) :: rest =>
      if containsKey cs pid then
        let cs1 := setInstParent cs g j
        let r := fixRefsGo f cs1 pid (instIdx cs1 pid)
        if r.ok then
          let r2 := fixRefsGo f r.comps g rest
          ⟨r2.comps, (pid :: r.trace) ++ r2.trace, r2.ok⟩
        else
          ⟨r.comps, pid :: r.trace, false⟩
      else
        fixRefsGo f cs g rest

/-- One invocation of `FixRefs(Components[g])`: log the entered definition
and run its instance loop. -/
def fixRefsC (fuel : Nat) (cs : Components) (g : String) : RunResult :=
  let r := fixRefsGo fuel cs g (instIdx cs g)
  ⟨r.comps, g :: r.trace, r.ok⟩

/-- The loop `for each (KeyValuePair<String^, Component^>^ cmp in
Components) FixRefs(cmp->Value)` of `LoadModel` (lines 242–245), driven over
the dictionary's key sequence.  If one invocation diverges (budget
exhausted), the later iterations are never reached. -/
def passComps (fuel : Nat) : Components → List String → RunResult
  | cs, [] => ⟨cs, [], true⟩
  | cs, k :: rest =>
    let r := fixRefsC fuel cs k
    if r.ok then
      let r2 := passComps fuel r.comps rest
      ⟨r2.comps, r.trace ++ r2.trace, r2.ok⟩
    else
      ⟨r.comps, r.trace, false⟩

/-- Result of `FixRefs(Group^)` on one group: the mutated `Components`,
the group's mutated instance list, the trace, and completion. -/
structure GrpResult where
  comps : Components
  insts : List Inst
  trace : List String
  ok : Bool
deriving DecidableEq, Repr

/-- Embedding of `void FixRefs(Group^ comp)` (lines 430–442): iterate the group's own
instances; for a known `ParentID` assign `Parent` and recurse into
`FixRefs(Components[ParentID])`. -/
def grpGo (fuel : Nat) : Components → List Inst → GrpResult
  | cs, [] => ⟨cs, [], [], true⟩
  | cs, i :: rest =>
    if containsKey cs i.parentID then
      let i1 : Inst := { i with parent := some i.parentID }
      let r := fixRefsC fuel cs i.parentID
      if r.ok then
        let r2 := grpGo fuel r.comps rest
        ⟨r2.comps, i1 :: r2.insts, r.trace ++ r2.trace, r2.ok⟩
      else
        ⟨r.comps, i1 :: rest, r.trace, false⟩
    else
      let r2 := grpGo fuel cs rest
      ⟨r2.comps, i :: r2.insts, r2.trace, r2.ok⟩

/-- Result of a pass over the top-level groups. -/
structure PassResult where
  comps : Components
  groups : List Group
  trace : List String
  ok : Bool

/-- The resolver half of the `for each (Group^ var in Groups)` loop of
`LoadModel` (lines 247–253): run `FixRefs` on each top-level group. -/
def passGroups (fuel : Nat) : Components → List Group → PassResult
  | cs, [] => ⟨cs, [], [], true⟩
  | cs, g :: rest =>
    let r := grpGo fuel cs g.instances
    let g1 : Group := { g with instances := r.insts }
    if r.ok then
      let r2 := passGroups fuel r.comps rest
      ⟨r2.comps, g1 :: r2.groups, r.trace ++ r2.trace, r2.ok⟩
    else
      ⟨r.comps, g1 :: rest, r.trace, false⟩

/-- The full resolution pass run by `LoadModel`: `FixRefs` over every
component of the `Components` dictionary (lines 242–245), then over every
top-level group (lines 247–253). -/
def fixRefsPass (fuel : Nat) (cs : Components) (gs : List Group) : PassResult :=
  let r := passComps fuel cs (cs.map (fun kc => kc.1))
  if r.ok then
    let r2 := passGroups fuel r.comps gs
    ⟨r2.comps, r2.groups, r.trace ++ r2.trace, r2.ok⟩
  else
    ⟨r.comps, gs, r.trace, false⟩

/-- The surface half of `FixMaterialRefs` (lines 406–413): fill the front
and the back slot, independently, when the slot's material name is the
empty-string sentinel. -/
def fixSurface (pm : Material) (s : Surface) : Surface :=
  let s1 := if s.frontMaterial.name == "" then { s with frontMaterial := pm } else s
  if s1.backMaterial.name == "" then { s1 with backMaterial := pm } else s1

/-- The child loop of `FixMaterialRefs(Group^ grp)` (lines 399–404) applied
with the parent's material `pm`: a child whose material name is empty gets
`pm`, then the recursion continues into the child with the child's (possibly
just inherited) material.  The surfaces of each visited group are filled
from that group's effective material (lines 406–413). -/
def fixGroups (pm : Material) : List Group → List Group
  | [] => []
  | g :: rest =>
    let m1 := if g.material.name == "" then pm else g.material
    { g with
      material := m1,
      surfaces := g.surfaces.map (fixSurface m1),
      groups := fixGroups m1 g.groups } :: fixGroups pm rest
termination_by l => sizeOf l
decreasing_by
  · simp only [List.cons.sizeOf_spec]
    have h : sizeOf g.groups < sizeOf g := by
      cases g
      simp only [Group.mk.sizeOf_spec]
      omega
    omega
  · simp only [List.cons.sizeOf_spec]
    omega

/-- Embedding of `void FixMaterialRefs(Group^ grp)` (lines 396–414) as called by
`LoadModel` on a top-level group: the group's own material is the inherited
material for its children and its own surfaces; the group's own material
slot is never written. -/
def fixMaterialRefs (grp : Group) : Group :=
  { grp with
    surfaces := grp.surfaces.map (fixSurface grp.material),
    groups := fixGroups grp.material grp.groups }

/-- Generic string-keyed lookup on a modelled dictionary. -/
def lookupD {α : Type} (d : List (String × α)) (k : String) : Option α :=
  (d.find? (fun kc => kc.1 == k)).map (fun kc => kc.2)

/-- Semantics of .NET `Dictionary.Add`: `none` models the
`ArgumentException` thrown on a duplicate key. -/
def dictAdd {α : Type} (d : List (String × α)) (k : String) (v : α) : Option (List (String × α)) :=
  if containsKey d k then none else some (d ++ [(k, v)])

/-- The material loop of `LoadModel` (lines 177–181): each extracted
material is `Add`ed only when its name is not yet a key
(`if (!Materials->ContainsKey(mat->Name)) Materials->Add(...)`). -/
def addMaterials : MDict → List Material → Option MDict
  | d, [] => some d
  | d, m :: rest =>
    if containsKey d m.name then
      addMaterials d rest
    else
      match dictAdd d m.name m with
      | none => none
      | some d1 => addMaterials d1 rest

/-- The `Materials` dictionary built by `LoadModel` from the extracted
material records, in extraction order. -/
def buildMaterials (ms : List Material) : Option MDict :=
  addMaterials [] ms

/-- The component loop of `LoadModel` (lines 222–225): every extracted
definition is `Add`ed unconditionally (`Components->Add(component->Guid,
component)`), so a duplicate guid throws. -/
def addComponents : Components → List Component → Option Components
  | cs, [] => some cs
  | cs, c :: rest =>
    match dictAdd cs c.guid c with
    | none => none
    | some cs1 => addComponents cs1 rest

/-- The `Components` dictionary built by `LoadModel` from the extracted
component definitions. -/
def buildComponents (l : List Component) : Option Components :=
  addComponents [] l

/-- The top-level instance loop of `LoadModel` (lines 233–240): an
instance whose `ParentID` is a key of `Components` gets its `Parent`
assigned; any other instance is left untouched. -/
def resolveTop (cs : Components) (l : List Inst) : List Inst :=
  l.map (fun i =>
    if containsKey cs i.parentID then { i with parent := some i.parentID } else i)

/-- Modelled from the spec: the load-status signal of the external
file-reading library (`SUModelLoadStatus`; the SketchUp API headers are not
part of the snapshot).  It distinguishes success, success for a file
written by a newer tool version, and the failure kinds. -/
inductive SUModelLoadStatus where
  | success
  | successMoreRecent
  | errorInvalidPath
  | errorCorruptFile
  | errorUnsupportedFormat
deriving DecidableEq, Repr

/-- The flat, ID-indexed tables the external file library exposes for one
input file, together with its load-status signal.  This is the input
boundary of `LoadModel`: the `FromSU`/`GetEntity*` extraction calls are
modelled as handing over these already-extracted records. -/
structure FileInput where
  status : SUModelLoadStatus
  fileMaterials : List Material
  fileLayers : List Layer
  fileGroups : List Group
  fileComponents : List Component
  fileSurfaces : List Surface
  fileCurves : List Curve
  fileEdges : List Edge
  fileInstances : List Inst

/-- The `SketchUp` class state: the scene-graph collections plus the
`MoreRecentFileVersion` flag (lines 74–114). -/
structure SketchUp where
  surfaces : List Surface
  layers : List Layer
  groups : List Group
  components : Components
  materials : MDict
  instances : List Inst
  curves : List Curve
  edges : List Edge
  moreRecentFileVersion : Bool

/-- Outcome of a `LoadModel` call: a thrown dictionary exception, a
non-terminating resolution pass (the call never returns), or a normal
return carrying the resulting state and the boolean return value. -/
inductive LoadOutcome where
  | threw
  | diverged
  | ret (st : SketchUp) (rv : Bool)

/-- The group loop of `LoadModel` (lines 247–253): `FixRefs` on each
top-level group and, when `inheritGroupMaterials` is set,
`FixMaterialRefs` on it. -/
def groupLoop (fuel : Nat) (inherit : Bool) : Components → List Group → PassResult
  | cs, [] => ⟨cs, [], [], true⟩
  | cs, g :: rest =>
    let r := grpGo fuel cs g.instances
    let g1 : Group := { g with instances := r.insts }
    if r.ok then
      let g2 := if inherit then fixMaterialRefs g1 else g1
      let r2 := groupLoop fuel inherit r.comps rest
      ⟨r2.comps, g2 :: r2.groups, r.trace ++ r2.trace, r2.ok⟩
    else
      ⟨r.comps, g1 :: rest, r.trace, false⟩

/-- Embedding of `bool LoadModel(String^ filename, bool includeMeshes, bool
inheritGroupMaterials)` (lines 143–260).  The status of
`SUModelCreateFromFileWithStatus` is consulted only to set
`MoreRecentFileVersion` (lines 155–158); extraction, resolution and the
`return true` happen for every status.  `includeMeshes` only switches
meshing inside the external extraction calls and is omitted.  `fuel`
budgets the unguarded `FixRefs` recursion: `LoadOutcome.diverged` means no
budget suffices, i.e. the call never returns. -/
def loadModel (fuel : Nat) (f : FileInput) (inheritGroupMaterials : Bool) : LoadOutcome :=
  let moreRecent := f.status == SUModelLoadStatus.successMoreRecent
  match buildMaterials f.fileMaterials with
  | none => LoadOutcome.threw
  | some materials =>
    match buildComponents f.fileComponents with
    | none => LoadOutcome.threw
    | some comps =>
      let insts := resolveTop comps f.fileInstances
      let r := passComps fuel comps (comps.map (fun kc => kc.1))
      if r.ok then
        let r2 := groupLoop fuel inheritGroupMaterials r.comps f.fileGroups
        if r2.ok then
          LoadOutcome.ret
            { surfaces := f.fileSurfaces
              layers := f.fileLayers
              groups := r2.groups
              components := r2.comps
              materials := materials
              instances := insts
              curves := f.fileCurves
              edges := f.fileEdges
              moreRecentFileVersion := moreRecent } true
        else LoadOutcome.diverged
      else LoadOutcome.diverged

/-- The boolean a `LoadModel` call reports to its caller (`none` when the
call throws or never returns). -/
def loadReturnValue : LoadOutcome → Option Bool
  | LoadOutcome.ret _ rv => some rv
  | _ => none

/-- The `SketchUp` state after a returning `LoadModel` call. -/
def loadState : LoadOutcome → Option SketchUp
  | LoadOutcome.ret st _ => some st
  | _ => none

/-- The `SKPVersion` enumeration (lines 50–61). -/
inductive SKPVersion where
  | V2013 | V2014 | V2015 | V2016 | V2017 | V2018 | V2019 | V2020 | V2021
deriving DecidableEq, Repr

/-- The external library's file-format version tags (`SUModelVersion`). -/
inductive SUModelVersion where
  | SU2013 | SU2014 | SU2015 | SU2016 | SU2017 | SU2018 | SU2019 | SU2020 | SU2021
deriving DecidableEq, Repr

/-- Embedding of `SUModelVersion ToSUVersion(SKPVersion version)` (lines
371–394); the `default` branch of the source `switch` is unreachable for
the closed enumeration. -/
def toSUVersion : SKPVersion → SUModelVersion
  | SKPVersion.V2013 => SUModelVersion.SU2013
  | SKPVersion.V2014 => SUModelVersion.SU2014
  | SKPVersion.V2015 => SUModelVersion.SU2015
  | SKPVersion.V2016 => SUModelVersion.SU2016
  | SKPVersion.V2017 => SUModelVersion.SU2017
  | SKPVersion.V2018 => SUModelVersion.SU2018
  | SKPVersion.V2019 => SUModelVersion.SU2019
  | SKPVersion.V2020 => SUModelVersion.SU2020
  | SKPVersion.V2021 => SUModelVersion.SU2021

/-- Effect of `bool SaveAs(String^ filename, SKPVersion version, String^
newFilename)` (lines 269–290) on the managed state: the
`MoreRecentFileVersion` flag is overwritten from the status of the file
just opened (lines 278–281), and the call returns `true`.  The file-side
effects happen in the external library. -/
def saveAs (m : SketchUp) (status : SUModelLoadStatus) (version : SKPVersion) : SketchUp × Bool :=
  ({ m with moreRecentFileVersion := status == SUModelLoadStatus.successMoreRecent }, true)

/-- Effect of `bool AppendToModel(String^ filename)` (lines 296–327) on the
managed state: the `MoreRecentFileVersion` flag is overwritten from the
status of the file just opened (lines 308–311), and the call returns
`true`. -/
def appendToModel (m : SketchUp) (status : SUModelLoadStatus) : SketchUp × Bool :=
  ({ m with moreRecentFileVersion := status == SUModelLoadStatus.successMoreRecent }, true)

/-- The native-API calls that manage the kernel handle and session, for
auditing acquisition/release on each exit path. -/
inductive APICall where
  | apiInit
  | apiCreateFromFile
  | apiModelCreate
  | apiGetEntities
  | apiAddFaces
  | apiAddEdges
  | apiAddCurves
  | apiSaveToFile
  | apiSaveWithVersion
  | apiRelease
  | apiTerminate
deriving DecidableEq, Repr

/-- The handle-lifecycle call sequence of a returning `LoadModel` call
(lines 147–257): one path, ending in `SUModelRelease`; `SUTerminate`.
Enumeration-only getters between `SUModelGetEntities` and the passes are
omitted. -/
def loadModelCalls : List APICall :=
  [APICall.apiInit, APICall.apiCreateFromFile, APICall.apiGetEntities,
   APICall.apiRelease, APICall.apiTerminate]

/-- The handle-lifecycle call sequence of `SaveAs` (lines 272–288): one
path, ending in `SUModelRelease`; `SUTerminate`. -/
def saveAsCalls : List APICall :=
  [APICall.apiInit, APICall.apiCreateFromFile, APICall.apiSaveWithVersion,
   APICall.apiRelease, APICall.apiTerminate]

/-- The handle-lifecycle call sequence of `AppendToModel` (lines 300–324):
one path, ending in `SUModelRelease`; `SUTerminate`. -/
def appendToModelCalls : List APICall :=
  [APICall.apiInit, APICall.apiCreateFromFile, APICall.apiGetEntities,
   APICall.apiAddFaces, APICall.apiAddEdges, APICall.apiAddCurves,
   APICall.apiSaveToFile, APICall.apiRelease, APICall.apiTerminate]

/-- The handle-lifecycle call sequence of `WriteNewModel` (lines 345–367),
as a function of whether `SUModelCreate` succeeded: on failure the function
takes the early `return false` at line 351, after `SUInitialize` and
`SUModelCreate` but before any `SUModelRelease` or `SUTerminate`. -/
def writeNewModelCalls (createOk : Bool) : List APICall :=
  if createOk then
    [APICall.apiInit, APICall.apiModelCreate, APICall.apiGetEntities,
     APICall.apiAddFaces, APICall.apiAddEdges, APICall.apiAddCurves,
     APICall.apiSaveWithVersion, APICall.apiRelease, APICall.apiTerminate]
  else
    [APICall.apiInit, APICall.apiModelCreate]

/-- The boolean `WriteNewModel` returns, as a function of whether
`SUModelCreate` succeeded (lines 349–351, 366). -/
def writeNewModelReturn (createOk : Bool) : Bool :=
  createOk

/-- An instance is resolved with respect to a `Components` state when its
`ParentID` being a dictionary key implies its `Parent` link holds exactly
that definition. -/
def instRes (cs : Components) (i : Inst) : Bool :=
  !(containsKey cs i.parentID) || (i.parent == some i.parentID)

/-- Resolvedness of the `j`-th instance of the definition at key `g`
(vacuously true outside the dictionary or the list). -/
def locRes (cs : Components) (g : String) (j : Nat) : Bool :=
  match (instsOf cs g)[j]? with
  | none => true
  | some i => instRes cs i

/-- A `Components` state is fully resolved when every instance of every
definition is resolved. -/
def resolvedAll (cs : Components) : Prop :=
  ∀ g j, locRes cs g j = true

/-- Alignment of a loop-item list with the state: each item carries the
`ParentID` actually stored at its position of definition `g`'s instance
list.  `instIdx` produces aligned items, and alignment is preserved because
`ParentID`s are never written. -/
def itemsGood (cs : Components) (g : String) (items : List (Nat × String)) : Prop :=
  ∀ jp ∈ items, (pidsOf cs g)[jp.1]? = some jp.2

/-- Resolvedness of the own instance lists of a collection of top-level
groups. -/
def groupsRes (cs : Components) (gs : List Group) : Prop :=
  ∀ g ∈ gs, ∀ i ∈ g.instances, instRes cs i = true

/-- A set of definition guids is trapped when every member owns an instance
whose `ParentID` is a dictionary key and again a member: every `FixRefs`
descent from a member reaches another member, which is what a reference
cycle among definitions produces. -/
def trapped (cs : Components) (cyc : List String) : Bool :=
  cyc.all (fun g => (pidsOf cs g).any (fun p => containsKey cs p && cyc.contains p))

/-- Per-surface check that explicitly set material slots (non-empty name)
kept their values. -/
def surfPres (o n : Surface) : Bool :=
  (o.frontMaterial.name == "" || (n.frontMaterial == o.frontMaterial)) &&
  (o.backMaterial.name == "" || (n.backMaterial == o.backMaterial))

/-- Pointwise `surfPres` over two surface lists of equal shape. -/
def surfsPres : List Surface → List Surface → Bool
  | [], [] => true
  | o :: os, n :: ns => surfPres o n && surfsPres os ns
  | _, _ => false

/-- Pointwise check over two group forests of equal shape that every
explicitly set material slot (group slot, surface front, surface back) kept
its value. -/
def groupsPres : List Group → List Group → Bool
  | [], [] => true
  | o :: os, n :: ns =>
    (o.material.name == "" || (n.material == o.material)) &&
    surfsPres o.surfaces n.surfaces &&
    groupsPres o.groups n.groups &&
    groupsPres os ns
  | _, _ => false
termination_by a b => sizeOf a
decreasing_by
  · simp only [List.cons.sizeOf_spec]
    have h : sizeOf o.groups < sizeOf o := by
      cases o
      simp only [Group.mk.sizeOf_spec]
      omega
    omega
  · simp only [List.cons.sizeOf_spec]
    omega

/-- Concrete cyclic definition graph: definition `A` owns an instance whose
`ParentID` names `B`, and `B` owns an instance whose `ParentID` names
`A`. -/
def exCycle : Components :=
  [("A", ⟨"A", [⟨"B", none⟩]⟩), ("B", ⟨"B", [⟨"A", none⟩]⟩)]

/-- Concrete diamond graph: definitions `A` and `B` each own one instance
referencing the shared definition `C`, whose own instance list is empty. -/
def exDiamond : Components :=
  [("A", ⟨"A", [⟨"C", none⟩]⟩), ("B", ⟨"B", [⟨"C", none⟩]⟩), ("C", ⟨"C", []⟩)]

/-- All six enumeration orders of the diamond graph's `Components`
dictionary. -/
def exDiamondOrders : List Components :=
  [[("A", ⟨"A", [⟨"C", none⟩]⟩), ("B", ⟨"B", [⟨"C", none⟩]⟩), ("C", ⟨"C", []⟩)],
   [("A", ⟨"A", [⟨"C", none⟩]⟩), ("C", ⟨"C", []⟩), ("B", ⟨"B", [⟨"C", none⟩]⟩)],
   [("B", ⟨"B", [⟨"C", none⟩]⟩), ("A", ⟨"A", [⟨"C", none⟩]⟩), ("C", ⟨"C", []⟩)],
   [("B", ⟨"B", [⟨"C", none⟩]⟩), ("C", ⟨"C", []⟩), ("A", ⟨"A", [⟨"C", none⟩]⟩)],
   [("C", ⟨"C", []⟩), ("A", ⟨"A", [⟨"C", none⟩]⟩), ("B", ⟨"B", [⟨"C", none⟩]⟩)],
   [("C", ⟨"C", []⟩), ("B", ⟨"B", [⟨"C", none⟩]⟩), ("A", ⟨"A", [⟨"C", none⟩]⟩)]]

/-- Concrete explicit material `M1`. -/
def exM1 : Material := ⟨"M1", 1, 1, ""⟩

/-- Concrete explicit material `M2`. -/
def exM2 : Material := ⟨"M2", 2, 2, ""⟩

/-- Concrete unset-sentinel material (empty name). -/
def exNoMat : Material := ⟨"", 0, 0, ""⟩

/-- Concrete surface with unset front material and explicit back material
`M2`. -/
def exSurf : Surface := ⟨exNoMat, exM2, "L"⟩

/-- Concrete child group with unset material containing `exSurf`. -/
def exG2 : Group := ⟨"G2", exNoMat, [exSurf], [], []⟩

/-- Concrete top group with explicit material `M1` containing `exG2`. -/
def exG : Group := ⟨"G", exM1, [], [exG2], []⟩

/-- Concrete file whose load status is a failure kind (corrupt file), with
one material, one definition and one top-level instance whose `ParentID`
matches nothing. -/
def exCorruptFile : FileInput :=
  ⟨SUModelLoadStatus.errorCorruptFile, [exM1], [], [], [⟨"A", []⟩], [], [], [],
   [⟨"X", none⟩]⟩

/-- Concrete file with empty tables and an invalid-path failure status. -/
def exEmptyInvalid : FileInput :=
  ⟨SUModelLoadStatus.errorInvalidPath, [], [], [], [], [], [], [], []⟩

/-- Concrete file with empty tables whose status reports a newer tool
version. -/
def exNewerFile : FileInput :=
  ⟨SUModelLoadStatus.successMoreRecent, [], [], [], [], [], [], [], []⟩

/-- Concrete file holding one definition `A` and one top-level instance
whose `ParentID` `X` matches no definition. -/
def exUnknownRefFile : FileInput :=
  ⟨SUModelLoadStatus.success, [], [], [], [⟨"A", []⟩], [], [], [], [⟨"X", none⟩]⟩

/-- Concrete empty `SketchUp` state, with a chosen `MoreRecentFileVersion`
flag. -/
def exState (flag : Bool) : SketchUp :=
  ⟨[], [], [], [], [], [], [], [], flag⟩

/-- The state a load of `exUnknownRefFile` produces: definition `A` kept,
the top-level instance still unresolved. -/
def exUnknownState : SketchUp :=
  ⟨[], [], [], [("A", ⟨"A", []⟩)], [], [⟨"X", none⟩], [], [], false⟩

/-! ## Basic lemmas about the heap primitives -/

theorem setParentAt_map_parentID (l : List Inst) (j : Nat) :
    (setParentAt l j).map (fun i => i.parentID) = l.map (fun i => i.parentID) := by
  induction l generalizing j with
  | nil => rfl
  | cons i rest ih =>
    cases j with
    | zero => rfl
    | succ j => simp only [setParentAt, List.map_cons, ih]

theorem setParentAt_getElem? (l : List Inst) (j k : Nat) :
    (setParentAt l j)[k]? =
      if k = j then (l[k]?).map (fun i => { i with parent := some i.parentID })
      else l[k]? := by
  induction l generalizing j k with
  | nil => simp [setParentAt]
  | cons i rest ih =>
    cases j with
    | zero =>
      cases k with
      | zero => simp [setParentAt]
      | succ k => simp [setParentAt]
    | succ j =>
      cases k with
      | zero => simp [setParentAt]
      | succ k =>
        simp only [setParentAt, List.getElem?_cons_succ, ih, Nat.succ.injEq]

theorem setParentAt_length (l : List Inst) (j : Nat) :
    (setParentAt l j).length = l.length := by
  induction l generalizing j with
  | nil => rfl
  | cons i rest ih =>
    cases j with
    | zero => rfl
    | succ j => simp only [setParentAt, List.length_cons, ih]

theorem setParentAt_eq_self {l : List Inst} {j : Nat} {i : Inst}
    (h : l[j]? = some i) (hp : i.parent = some i.parentID) :
    setParentAt l j = l := by
  induction l generalizing j with
  | nil => rfl
  | cons a rest ih =>
    cases j with
    | zero =>
      have ha : a = i := by simpa using h
      have hp2 : a.parent = some a.parentID := by rw [ha]; exact hp
      simp only [setParentAt]
      have h2 : ({ a with parent := some a.parentID } : Inst) = a := by
        cases a
        simp_all
      rw [h2]
    | succ j =>
      simp only [List.getElem?_cons_succ] at h
      simp only [setParentAt, ih h]

theorem containsKey_cons {α : Type} (k : String) (c : α)
    (rest : List (String × α)) (a : String) :
    containsKey ((k, c) :: rest) a = ((k == a) || containsKey rest a) := by
  simp [containsKey]

theorem getComp_cons (k : String) (c : Component) (rest : Components) (a : String) :
    getComp ((k, c) :: rest) a = if k == a then some c else getComp rest a := by
  by_cases h : k == a <;> simp [getComp, List.find?_cons, h]

theorem instsOf_nil (a : String) : instsOf [] a = [] := rfl

theorem instsOf_cons (k : String) (c : Component) (rest : Components) (a : String) :
    instsOf ((k, c) :: rest) a = if k == a then c.instances else instsOf rest a := by
  unfold instsOf
  rw [getComp_cons]
  by_cases h : k == a <;> simp [h]

theorem instsOf_setInstParent (cs : Components) (g : String) (j : Nat) (a : String) :
    instsOf (setInstParent cs g j) a =
      if a = g then setParentAt (instsOf cs a) j else instsOf cs a := by
  induction cs with
  | nil =>
    simp only [setInstParent, instsOf_nil, setParentAt]
    by_cases h : a = g <;> simp [h]
  | cons kc rest ih =>
    obtain ⟨k, c⟩ := kc
    by_cases hk : k = g
    · subst hk
      by_cases ha : a = k
      · subst ha
        simp [setInstParent, instsOf_cons]
      · have hka : (k == a) = false := beq_eq_false_iff_ne.mpr (fun h => ha h.symm)
        simp [setInstParent, instsOf_cons, hka, ha]
    · have hk2 : (k == g) = false := beq_eq_false_iff_ne.mpr hk
      by_cases hka : k = a
      · subst hka
        simp [setInstParent, instsOf_cons, hk2, hk]
      · have hka2 : (k == a) = false := beq_eq_false_iff_ne.mpr hka
        simp [setInstParent, instsOf_cons, hk2, hka2, ih]

theorem pidsOf_setInstParent (cs : Components) (g : String) (j : Nat) (a : String) :
    pidsOf (setInstParent cs g j) a = pidsOf cs a := by
  unfold pidsOf
  rw [instsOf_setInstParent]
  by_cases h : a = g
  · rw [if_pos h, h, setParentAt_map_parentID]
  · rw [if_neg h]

theorem containsKey_setInstParent (cs : Components) (g : String) (j : Nat) (k : String) :
    containsKey (setInstParent cs g j) k = containsKey cs k := by
  induction cs with
  | nil => rfl
  | cons kc rest ih =>
    obtain ⟨k1, c⟩ := kc
    by_cases hk : k1 == g
    · simp [setInstParent, hk, containsKey_cons]
    · simp [setInstParent, hk, containsKey_cons, ih]

theorem setInstParent_eq_self {cs : Components} {g : String} {j : Nat} {i : Inst}
    (h : (instsOf cs g)[j]? = some i) (hp : i.parent = some i.parentID) :
    setInstParent cs g j = cs := by
  induction cs with
  | nil => rfl
  | cons kc rest ih =>
    obtain ⟨k, c⟩ := kc
    by_cases hk : k = g
    · subst hk
      rw [instsOf_cons] at h
      simp only [beq_self_eq_true, if_true] at h
      simp only [setInstParent, beq_self_eq_true, if_true]
      rw [setParentAt_eq_self h hp]
    · have hk2 : (k == g) = false := beq_eq_false_iff_ne.mpr hk
      rw [instsOf_cons] at h
      simp only [hk2, Bool.false_eq_true, if_false] at h
      simp only [setInstParent, hk2, Bool.false_eq_true, if_false]
      rw [ih h]

/-! ## The resolver's loop preserves keys and `ParentID` skeletons -/

theorem fixRefsGo_pids (fuel : Nat) :
    ∀ (cs : Components) (g : String) (items : List (Nat × String)) (a : String),
      pidsOf (fixRefsGo fuel cs g items).comps a = pidsOf cs a := by
  induction fuel with
  | zero => intro cs g items a; rfl
  | succ f ih =>
    intro cs g items a
    match items with
    | [] => rfl
    | (j, pid) :: rest =>
      by_cases h : containsKey cs pid
      · by_cases h2 : (fixRefsGo f (setInstParent cs g j) pid
            (instIdx (setInstParent cs g j) pid)).ok
        · simp only [fixRefsGo, h, if_true, h2]
          rw [ih, ih, pidsOf_setInstParent]
        · simp only [fixRefsGo, h, if_true, h2]
          simp only [Bool.false_eq_true, if_false]
          rw [ih, pidsOf_setInstParent]
      · simp only [fixRefsGo, h]
        simp only [Bool.false_eq_true, if_false]
        exact ih cs g rest a

theorem fixRefsGo_keys (fuel : Nat) :
    ∀ (cs : Components) (g : String) (items : List (Nat × String)) (k : String),
      containsKey (fixRefsGo fuel cs g items).comps k = containsKey cs k := by
  induction fuel with
  | zero => intro cs g items k; rfl
  | succ f ih =>
    intro cs g items k
    match items with
    | [] => rfl
    | (j, pid) :: rest =>
      by_cases h : containsKey cs pid
      · by_cases h2 : (fixRefsGo f (setInstParent cs g j) pid
            (instIdx (setInstParent cs g j) pid)).ok
        · simp only [fixRefsGo, h, if_true, h2]
          rw [ih, ih, containsKey_setInstParent]
        · simp only [fixRefsGo, h, if_true, h2]
          simp only [Bool.false_eq_true, if_false]
          rw [ih, containsKey_setInstParent]
      · simp only [fixRefsGo, h]
        simp only [Bool.false_eq_true, if_false]
        exact ih cs g rest k

theorem pids_getElem? (cs : Components) (g : String) (j : Nat) :
    (pidsOf cs g)[j]? = ((instsOf cs g)[j]?).map (fun i => i.parentID) := by
  unfold pidsOf
  rw [List.getElem?_map]

theorem itemsGood_instIdx (cs : Components) (g : String) :
    itemsGood cs g (instIdx cs g) := by
  intro jp hjp
  unfold instIdx at hjp
  exact List.mem_enum_iff_getElem?.mp hjp

theorem itemsGood_of_pids_eq {cs cs1 : Components} {g : String}
    {items : List (Nat × String)} (hp : ∀ a, pidsOf cs1 a = pidsOf cs a)
    (h : itemsGood cs g items) : itemsGood cs1 g items := by
  intro jp hjp
  rw [hp g]
  exact h jp hjp

theorem itemsGood_tail {cs : Components} {g : String} {jp : Nat × String}
    {rest : List (Nat × String)} (h : itemsGood cs g (jp :: rest)) :
    itemsGood cs g rest :=
  fun x hx => h x (List.mem_cons_of_mem jp hx)

theorem instsOf_eq_nil_of_not_containsKey {cs : Components} {g : String}
    (h : containsKey cs g = false) : instsOf cs g = [] := by
  unfold instsOf getComp
  have : cs.find? (fun kc => kc.1 == g) = none := by
    rw [List.find?_eq_none]
    intro x hx
    intro hb
    have : containsKey cs g = true := by
      unfold containsKey
      rw [List.any_eq_true]
      exact ⟨x, hx, hb⟩
    rw [this] at h
    cases h
  rw [this]
  rfl

/-! ## Resolvedness facts about `locRes` -/

theorem locRes_of_none {cs : Components} {g : String} {j : Nat}
    (h : (instsOf cs g)[j]? = none) : locRes cs g j = true := by
  unfold locRes
  rw [h]

theorem locRes_of_some {cs : Components} {g : String} {j : Nat} {i : Inst}
    (h : (instsOf cs g)[j]? = some i) : locRes cs g j = instRes cs i := by
  unfold locRes
  rw [h]

theorem instRes_congr_keys {cs cs1 : Components} {i : Inst}
    (h : ∀ k, containsKey cs1 k = containsKey cs k) :
    instRes cs1 i = instRes cs i := by
  unfold instRes
  rw [h]

theorem locRes_setInstParent_self (cs : Components) (g : String) (j : Nat) :
    locRes (setInstParent cs g j) g j = true := by
  cases h : (instsOf cs g)[j]? with
  | none =>
    apply locRes_of_none
    rw [instsOf_setInstParent, if_pos rfl, setParentAt_getElem?, if_pos rfl, h]
    rfl
  | some i =>
    have h2 : (instsOf (setInstParent cs g j) g)[j]? =
        some { i with parent := some i.parentID } := by
      rw [instsOf_setInstParent, if_pos rfl, setParentAt_getElem?, if_pos rfl, h]
      rfl
    rw [locRes_of_some h2]
    unfold instRes
    simp

theorem locRes_setInstParent {cs : Components} {g : String} {j : Nat}
    {a : String} {b : Nat} (h : locRes cs a b = true) :
    locRes (setInstParent cs g j) a b = true := by
  by_cases hag : a = g
  · subst hag
    by_cases hbj : b = j
    · subst hbj
      exact locRes_setInstParent_self cs a b
    · have h2 : (instsOf (setInstParent cs a j) a)[b]? = (instsOf cs a)[b]? := by
        rw [instsOf_setInstParent, if_pos rfl, setParentAt_getElem?, if_neg hbj]
      cases hx : (instsOf cs a)[b]? with
      | none => exact locRes_of_none (by rw [h2, hx])
      | some i =>
        rw [locRes_of_some (by rw [h2, hx] : _ = some i)]
        rw [instRes_congr_keys (fun k => containsKey_setInstParent cs a j k)]
        rw [locRes_of_some hx] at h
        exact h
  · have h2 : (instsOf (setInstParent cs g j) a)[b]? = (instsOf cs a)[b]? := by
      rw [instsOf_setInstParent, if_neg hag]
    cases hx : (instsOf cs a)[b]? with
    | none => exact locRes_of_none (by rw [h2, hx])
    | some i =>
      rw [locRes_of_some (by rw [h2, hx] : _ = some i)]
      rw [instRes_congr_keys (fun k => containsKey_setInstParent cs g j k)]
      rw [locRes_of_some hx] at h
      exact h

theorem fixRefsGo_locRes (fuel : Nat) :
    ∀ (cs : Components) (g : String) (items : List (Nat × String))
      (a : String) (b : Nat), locRes cs a b = true →
      locRes (fixRefsGo fuel cs g items).comps a b = true := by
  induction fuel with
  | zero => intro cs g items a b h; exact h
  | succ f ih =>
    intro cs g items a b h
    match items with
    | [] => exact h
    | (j, pid) :: rest =>
      by_cases hc : containsKey cs pid
      · by_cases h2 : (fixRefsGo f (setInstParent cs g j) pid
            (instIdx (setInstParent cs g j) pid)).ok
        · simp only [fixRefsGo, hc, if_true, h2]
          exact ih _ _ _ _ _ (ih _ _ _ _ _ (locRes_setInstParent h))
        · simp only [fixRefsGo, hc, if_true, h2]
          simp only [Bool.false_eq_true, if_false]
          exact ih _ _ _ _ _ (locRes_setInstParent h)
      · simp only [fixRefsGo, hc]
        simp only [Bool.false_eq_true, if_false]
        exact ih _ _ _ _ _ h

theorem fixRefsGo_establish (fuel : Nat) :
    ∀ (cs : Components) (g : String) (items : List (Nat × String)),
      (fixRefsGo fuel cs g items).ok = true → itemsGood cs g items →
      ∀ jp ∈ items, locRes (fixRefsGo fuel cs g items).comps g jp.1 = true := by
  induction fuel with
  | zero =>
    intro cs g items h
    cases h
  | succ f ih =>
    intro cs g items hok hgood jp hjp
    match items with
    | [] => cases hjp
    | (j, pid) :: rest =>
      by_cases hc : containsKey cs pid
      · by_cases h2 : (fixRefsGo f (setInstParent cs g j) pid
            (instIdx (setInstParent cs g j) pid)).ok
        · simp only [fixRefsGo, hc, if_true, h2] at hok ⊢
          have hgood1 : itemsGood (fixRefsGo f (setInstParent cs g j) pid
              (instIdx (setInstParent cs g j) pid)).comps g rest :=
            itemsGood_of_pids_eq
              (fun a => by rw [fixRefsGo_pids, pidsOf_setInstParent])
              (itemsGood_tail hgood)
          rcases List.mem_cons.mp hjp with heq | hmem
          · subst heq
            exact fixRefsGo_locRes f _ _ _ _ _
              (fixRefsGo_locRes f _ _ _ _ _ (locRes_setInstParent_self cs g j))
          · exact ih _ _ _ hok hgood1 jp hmem
        · simp only [fixRefsGo, hc, if_true, h2] at hok
          simp only [Bool.false_eq_true, if_false] at hok
      · simp only [fixRefsGo, hc] at hok ⊢
        simp only [Bool.false_eq_true, if_false] at hok ⊢
        rcases List.mem_cons.mp hjp with heq | hmem
        · subst heq
          apply fixRefsGo_locRes
          have hpid : (pidsOf cs g)[j]? = some pid := hgood (j, pid) hjp
          rw [pids_getElem?] at hpid
          cases hx : (instsOf cs g)[j]? with
          | none => exact locRes_of_none hx
          | some i =>
            rw [hx] at hpid
            have hpi : i.parentID = pid := by simpa using hpid
            rw [locRes_of_some hx]
            unfold instRes
            have hc2 : containsKey cs pid = false := by simpa using hc
            rw [hpi, hc2]
            rfl
        · exact ih _ _ _ hok (itemsGood_tail hgood) jp hmem

theorem pidsOf_length (cs : Components) (g : String) :
    (pidsOf cs g).length = (instsOf cs g).length := by
  unfold pidsOf
  rw [List.length_map]

theorem fixRefsC_pids (fuel : Nat) (cs : Components) (g a : String) :
    pidsOf (fixRefsC fuel cs g).comps a = pidsOf cs a :=
  fixRefsGo_pids fuel cs g (instIdx cs g) a

theorem fixRefsC_keys (fuel : Nat) (cs : Components) (g k : String) :
    containsKey (fixRefsC fuel cs g).comps k = containsKey cs k :=
  fixRefsGo_keys fuel cs g (instIdx cs g) k

theorem fixRefsC_locRes (fuel : Nat) {cs : Components} (g : String)
    {a : String} {b : Nat} (h : locRes cs a b = true) :
    locRes (fixRefsC fuel cs g).comps a b = true :=
  fixRefsGo_locRes fuel cs g (instIdx cs g) a b h

theorem fixRefsC_resolves (fuel : Nat) (cs : Components) (g : String)
    (h : (fixRefsC fuel cs g).ok = true) :
    ∀ j, locRes (fixRefsC fuel cs g).comps g j = true := by
  intro j
  by_cases hj : j < (pidsOf cs g).length
  · have hmem : (j, (pidsOf cs g).get ⟨j, hj⟩) ∈ instIdx cs g := by
      unfold instIdx
      apply List.mk_mem_enum_iff_getElem?.mpr
      simp
    exact fixRefsGo_establish fuel cs g (instIdx cs g) h
      (itemsGood_instIdx cs g) _ hmem
  · apply locRes_of_none
    apply List.getElem?_eq_none
    have h1 : (pidsOf (fixRefsC fuel cs g).comps g).length =
        (pidsOf cs g).length := by
      rw [fixRefsC_pids]
    have h2 : (pidsOf (fixRefsC fuel cs g).comps g).length =
        (instsOf (fixRefsC fuel cs g).comps g).length :=
      pidsOf_length _ g
    omega

/-! ## The component loop of `LoadModel` resolves every definition -/

theorem passComps_pids (fuel : Nat) :
    ∀ (cs : Components) (keys : List String) (a : String),
      pidsOf (passComps fuel cs keys).comps a = pidsOf cs a := by
  intro cs keys
  induction keys generalizing cs with
  | nil => intro a; rfl
  | cons k rest ih =>
    intro a
    by_cases h : (fixRefsC fuel cs k).ok
    · simp only [passComps, h, if_true]
      rw [ih, fixRefsC_pids]
    · simp only [passComps, h]
      simp only [Bool.false_eq_true, if_false]
      exact fixRefsC_pids fuel cs k a

theorem passComps_keys (fuel : Nat) :
    ∀ (cs : Components) (keys : List String) (k1 : String),
      containsKey (passComps fuel cs keys).comps k1 = containsKey cs k1 := by
  intro cs keys
  induction keys generalizing cs with
  | nil => intro k1; rfl
  | cons k rest ih =>
    intro k1
    by_cases h : (fixRefsC fuel cs k).ok
    · simp only [passComps, h, if_true]
      rw [ih, fixRefsC_keys]
    · simp only [passComps, h]
      simp only [Bool.false_eq_true, if_false]
      exact fixRefsC_keys fuel cs k k1

theorem passComps_locRes (fuel : Nat) :
    ∀ (cs : Components) (keys : List String) {a : String} {b : Nat},
      locRes cs a b = true →
      locRes (passComps fuel cs keys).comps a b = true := by
  intro cs keys
  induction keys generalizing cs with
  | nil => intro a b h; exact h
  | cons k rest ih =>
    intro a b h
    by_cases hk : (fixRefsC fuel cs k).ok
    · simp only [passComps, hk, if_true]
      exact ih _ (fixRefsC_locRes fuel k h)
    · simp only [passComps, hk]
      simp only [Bool.false_eq_true, if_false]
      exact fixRefsC_locRes fuel k h

theorem passComps_resolves (fuel : Nat) :
    ∀ (cs : Components) (keys : List String),
      (passComps fuel cs keys).ok = true →
      ∀ k ∈ keys, ∀ j, locRes (passComps fuel cs keys).comps k j = true := by
  intro cs keys
  induction keys generalizing cs with
  | nil =>
    intro hok k hk
    cases hk
  | cons k1 rest ih =>
    intro hok k hk j
    by_cases h : (fixRefsC fuel cs k1).ok
    · simp only [passComps, h, if_true] at hok ⊢
      rcases List.mem_cons.mp hk with heq | hmem
      · subst heq
        exact passComps_locRes fuel _ rest (fixRefsC_resolves fuel cs k h j)
      · exact ih _ hok k hmem j
    · simp only [passComps, h] at hok
      simp only [Bool.false_eq_true, if_false] at hok

theorem mem_keys_of_containsKey {cs : Components} {g : String}
    (h : containsKey cs g = true) : g ∈ cs.map (fun kc => kc.1) := by
  unfold containsKey at h
  rw [List.any_eq_true] at h
  obtain ⟨kc, hkc, hb⟩ := h
  have hg : kc.1 = g := by simpa using hb
  exact hg ▸ List.mem_map_of_mem _ hkc

theorem passComps_resolvedAll (fuel : Nat) (cs : Components)
    (h : (passComps fuel cs (cs.map (fun kc => kc.1))).ok = true) :
    resolvedAll (passComps fuel cs (cs.map (fun kc => kc.1))).comps := by
  intro g j
  by_cases hg : containsKey cs g
  · exact passComps_resolves fuel cs _ h g (mem_keys_of_containsKey hg) j
  · apply locRes_of_none
    have h1 : containsKey (passComps fuel cs (cs.map (fun kc => kc.1))).comps g =
        containsKey cs g := passComps_keys fuel cs _ g
    have h2 : instsOf (passComps fuel cs (cs.map (fun kc => kc.1))).comps g = [] := by
      apply instsOf_eq_nil_of_not_containsKey
      rw [h1]
      simpa using hg
    rw [h2]
    rfl

/-! ## The group loop of `LoadModel` resolves every group instance -/

theorem grpGo_pids (fuel : Nat) :
    ∀ (cs : Components) (l : List Inst) (a : String),
      pidsOf (grpGo fuel cs l).comps a = pidsOf cs a := by
  intro cs l
  induction l generalizing cs with
  | nil => intro a; rfl
  | cons i rest ih =>
    intro a
    by_cases hc : containsKey cs i.parentID
    · by_cases h2 : (fixRefsC fuel cs i.parentID).ok
      · simp only [grpGo, hc, if_true, h2]
        rw [ih, fixRefsC_pids]
      · simp only [grpGo, hc, if_true, h2]
        simp only [Bool.false_eq_true, if_false]
        exact fixRefsC_pids fuel cs i.parentID a
    · simp only [grpGo, hc]
      simp only [Bool.false_eq_true, if_false]
      exact ih cs a

theorem grpGo_keys (fuel : Nat) :
    ∀ (cs : Components) (l : List Inst) (k : String),
      containsKey (grpGo fuel cs l).comps k = containsKey cs k := by
  intro cs l
  induction l generalizing cs with
  | nil => intro k; rfl
  | cons i rest ih =>
    intro k
    by_cases hc : containsKey cs i.parentID
    · by_cases h2 : (fixRefsC fuel cs i.parentID).ok
      · simp only [grpGo, hc, if_true, h2]
        rw [ih, fixRefsC_keys]
      · simp only [grpGo, hc, if_true, h2]
        simp only [Bool.false_eq_true, if_false]
        exact fixRefsC_keys fuel cs i.parentID k
    · simp only [grpGo, hc]
      simp only [Bool.false_eq_true, if_false]
      exact ih cs k

theorem grpGo_locRes (fuel : Nat) :
    ∀ (cs : Components) (l : List Inst) {a : String} {b : Nat},
      locRes cs a b = true → locRes (grpGo fuel cs l).comps a b = true := by
  intro cs l
  induction l generalizing cs with
  | nil => intro a b h; exact h
  | cons i rest ih =>
    intro a b h
    by_cases hc : containsKey cs i.parentID
    · by_cases h2 : (fixRefsC fuel cs i.parentID).ok
      · simp only [grpGo, hc, if_true, h2]
        exact ih _ (fixRefsC_locRes fuel i.parentID h)
      · simp only [grpGo, hc, if_true, h2]
        simp only [Bool.false_eq_true, if_false]
        exact fixRefsC_locRes fuel i.parentID h
    · simp only [grpGo, hc]
      simp only [Bool.false_eq_true, if_false]
      exact ih cs h

theorem grpGo_establishes (fuel : Nat) :
    ∀ (cs : Components) (l : List Inst), (grpGo fuel cs l).ok = true →
      ∀ i ∈ (grpGo fuel cs l).insts,
        instRes (grpGo fuel cs l).comps i = true := by
  intro cs l
  induction l generalizing cs with
  | nil =>
    intro hok i hi
    cases hi
  | cons i rest ih =>
    intro hok i0 hi0
    by_cases hc : containsKey cs i.parentID
    · by_cases h2 : (fixRefsC fuel cs i.parentID).ok
      · simp only [grpGo, hc, if_true, h2] at hok hi0 ⊢
        rcases List.mem_cons.mp hi0 with heq | hmem
        · subst heq
          unfold instRes
          simp
        · exact ih _ hok i0 hmem
      · simp only [grpGo, hc, if_true, h2] at hok
        simp only [Bool.false_eq_true, if_false] at hok
    · simp only [grpGo, hc] at hok hi0 ⊢
      simp only [Bool.false_eq_true, if_false] at hok hi0 ⊢
      rcases List.mem_cons.mp hi0 with heq | hmem
      · subst heq
        unfold instRes
        rw [grpGo_keys fuel cs rest]
        have hc2 : containsKey cs i0.parentID = false := by simpa using hc
        rw [hc2]
        rfl
      · exact ih _ hok i0 hmem

theorem passGroups_pids (fuel : Nat) :
    ∀ (cs : Components) (gs : List Group) (a : String),
      pidsOf (passGroups fuel cs gs).comps a = pidsOf cs a := by
  intro cs gs
  induction gs generalizing cs with
  | nil => intro a; rfl
  | cons g rest ih =>
    intro a
    by_cases h : (grpGo fuel cs g.instances).ok
    · simp only [passGroups, h, if_true]
      rw [ih, grpGo_pids]
    · simp only [passGroups, h]
      simp only [Bool.false_eq_true, if_false]
      exact grpGo_pids fuel cs g.instances a

theorem passGroups_keys (fuel : Nat) :
    ∀ (cs : Components) (gs : List Group) (k : String),
      containsKey (passGroups fuel cs gs).comps k = containsKey cs k := by
  intro cs gs
  induction gs generalizing cs with
  | nil => intro k; rfl
  | cons g rest ih =>
    intro k
    by_cases h : (grpGo fuel cs g.instances).ok
    · simp only [passGroups, h, if_true]
      rw [ih, grpGo_keys]
    · simp only [passGroups, h]
      simp only [Bool.false_eq_true, if_false]
      exact grpGo_keys fuel cs g.instances k

theorem passGroups_locRes (fuel : Nat) :
    ∀ (cs : Components) (gs : List Group) {a : String} {b : Nat},
      locRes cs a b = true → locRes (passGroups fuel cs gs).comps a b = true := by
  intro cs gs
  induction gs generalizing cs with
  | nil => intro a b h; exact h
  | cons g rest ih =>
    intro a b h
    by_cases hk : (grpGo fuel cs g.instances).ok
    · simp only [passGroups, hk, if_true]
      exact ih _ (grpGo_locRes fuel cs g.instances h)
    · simp only [passGroups, hk]
      simp only [Bool.false_eq_true, if_false]
      exact grpGo_locRes fuel cs g.instances h

theorem instRes_keys_eq {cs cs1 : Components} {i : Inst}
    (hk : ∀ k, containsKey cs1 k = containsKey cs k)
    (h : instRes cs i = true) : instRes cs1 i = true := by
  rw [instRes_congr_keys hk]
  exact h

theorem passGroups_establishes (fuel : Nat) :
    ∀ (cs : Components) (gs : List Group), (passGroups fuel cs gs).ok = true →
      groupsRes (passGroups fuel cs gs).comps (passGroups fuel cs gs).groups := by
  intro cs gs
  induction gs generalizing cs with
  | nil =>
    intro hok g hg
    cases hg
  | cons g rest ih =>
    intro hok g0 hg0 i hi
    by_cases h : (grpGo fuel cs g.instances).ok
    · simp only [passGroups, h, if_true] at hok hg0 ⊢
      rcases List.mem_cons.mp hg0 with heq | hmem
      · subst heq
        simp only at hi
        apply instRes_keys_eq (fun k => passGroups_keys fuel _ rest k)
        exact grpGo_establishes fuel cs g.instances h i hi
      · exact ih _ hok g0 hmem i hi
    · simp only [passGroups, h] at hok
      simp only [Bool.false_eq_true, if_false] at hok

/-! ## A fully resolved state is a fixed point of the resolver -/

theorem fixRefsGo_noop (fuel : Nat) :
    ∀ (cs : Components) (g : String) (items : List (Nat × String)),
      resolvedAll cs → itemsGood cs g items →
      (fixRefsGo fuel cs g items).comps = cs := by
  induction fuel with
  | zero => intro cs g items _ _; rfl
  | succ f ih =>
    intro cs g items hres hgood
    match items with
    | [] => rfl
    | (j, pid) :: rest =>
      by_cases hc : containsKey cs pid
      · have hset : setInstParent cs g j = cs := by
          have hpid : (pidsOf cs g)[j]? = some pid :=
            hgood (j, pid) (List.mem_cons_self _ _)
          rw [pids_getElem?] at hpid
          cases hx : (instsOf cs g)[j]? with
          | none =>
            rw [hx] at hpid
            simp at hpid
          | some i =>
            rw [hx] at hpid
            have hpi : i.parentID = pid := by simpa using hpid
            have hloc := hres g j
            rw [locRes_of_some hx] at hloc
            unfold instRes at hloc
            rw [hpi, hc] at hloc
            have hp : i.parent = some i.parentID := by simpa [hpi] using hloc
            exact setInstParent_eq_self hx hp
        simp only [fixRefsGo, hc, if_true]
        rw [hset]
        have hr : (fixRefsGo f cs pid (instIdx cs pid)).comps = cs :=
          ih cs pid _ hres (itemsGood_instIdx cs pid)
        by_cases h2 : (fixRefsGo f cs pid (instIdx cs pid)).ok
        · simp only [h2, if_true]
          rw [hr]
          exact ih cs g rest hres (itemsGood_tail hgood)
        · simp only [h2, Bool.false_eq_true, if_false]
          exact hr
      · simp only [fixRefsGo, hc]
        simp only [Bool.false_eq_true, if_false]
        exact ih cs g rest hres (itemsGood_tail hgood)

theorem fixRefsC_noop (fuel : Nat) (cs : Components) (g : String)
    (hres : resolvedAll cs) : (fixRefsC fuel cs g).comps = cs :=
  fixRefsGo_noop fuel cs g (instIdx cs g) hres (itemsGood_instIdx cs g)

theorem passComps_noop (fuel : Nat) :
    ∀ (cs : Components) (keys : List String), resolvedAll cs →
      (passComps fuel cs keys).comps = cs := by
  intro cs keys
  induction keys generalizing cs with
  | nil => intro _; rfl
  | cons k rest ih =>
    intro hres
    have hr := fixRefsC_noop fuel cs k hres
    by_cases h : (fixRefsC fuel cs k).ok
    · simp only [passComps, h, if_true]
      rw [hr]
      exact ih cs hres
    · simp only [passComps, h]
      simp only [Bool.false_eq_true, if_false]
      exact hr

theorem grpGo_noop (fuel : Nat) :
    ∀ (cs : Components) (l : List Inst), resolvedAll cs →
      (∀ i ∈ l, instRes cs i = true) →
      (grpGo fuel cs l).comps = cs ∧ (grpGo fuel cs l).insts = l := by
  intro cs l
  induction l generalizing cs with
  | nil => intro _ _; exact ⟨rfl, rfl⟩
  | cons i rest ih =>
    intro hres hl
    by_cases hc : containsKey cs i.parentID
    · have hi : instRes cs i = true := hl i (List.mem_cons_self _ _)
      have hp : i.parent = some i.parentID := by
        unfold instRes at hi
        rw [hc] at hi
        simpa using hi
      have hi1 : ({ i with parent := some i.parentID } : Inst) = i := by
        cases i
        simp_all
      have hrc : (fixRefsC fuel cs i.parentID).comps = cs :=
        fixRefsC_noop fuel cs i.parentID hres
      by_cases h2 : (fixRefsC fuel cs i.parentID).ok
      · simp only [grpGo, hc, if_true, h2]
        rw [hrc, hi1]
        obtain ⟨e1, e2⟩ := ih cs hres (fun x hx => hl x (List.mem_cons_of_mem i hx))
        rw [e1, e2]
        exact ⟨rfl, rfl⟩
      · simp only [grpGo, hc, if_true, h2]
        simp only [Bool.false_eq_true, if_false]
        rw [hrc, hi1]
        exact ⟨rfl, rfl⟩
    · simp only [grpGo, hc]
      simp only [Bool.false_eq_true, if_false]
      obtain ⟨e1, e2⟩ := ih cs hres (fun x hx => hl x (List.mem_cons_of_mem i hx))
      rw [e1, e2]
      exact ⟨rfl, rfl⟩

theorem passGroups_noop (fuel : Nat) :
    ∀ (cs : Components) (gs : List Group), resolvedAll cs → groupsRes cs gs →
      (passGroups fuel cs gs).comps = cs ∧ (passGroups fuel cs gs).groups = gs := by
  intro cs gs
  induction gs generalizing cs with
  | nil => intro _ _; exact ⟨rfl, rfl⟩
  | cons g rest ih =>
    intro hres hgs
    obtain ⟨e1, e2⟩ := grpGo_noop fuel cs g.instances hres
      (hgs g (List.mem_cons_self _ _))
    have hg1 : ({ g with instances := (grpGo fuel cs g.instances).insts } : Group) = g := by
      rw [e2]
      cases g
      rfl
    by_cases h : (grpGo fuel cs g.instances).ok
    · simp only [passGroups, h, if_true]
      rw [e1, hg1]
      obtain ⟨f1, f2⟩ := ih cs hres (fun x hx => hgs x (List.mem_cons_of_mem g hx))
      rw [f1, f2]
      exact ⟨rfl, rfl⟩
    · simp only [passGroups, h]
      simp only [Bool.false_eq_true, if_false]
      rw [e1, hg1]
      exact ⟨rfl, rfl⟩

/-! ## Cyclic definition graphs exhaust every recursion budget -/

theorem trapped_spec {cs : Components} {cyc : List String}
    (h : trapped cs cyc = true) :
    ∀ g ∈ cyc, ∃ p, p ∈ pidsOf cs g ∧ containsKey cs p = true ∧ p ∈ cyc := by
  intro g hg
  unfold trapped at h
  rw [List.all_eq_true] at h
  have h2 := h g hg
  rw [List.any_eq_true] at h2
  obtain ⟨p, hp, hb⟩ := h2
  rw [Bool.and_eq_true] at hb
  refine ⟨p, hp, hb.1, ?_⟩
  simpa using hb.2

theorem fixRefsGo_trapped (cyc : List String) (cs0 : Components)
    (htr : trapped cs0 cyc = true) :
    ∀ (fuel : Nat) (cs : Components) (g : String) (items : List (Nat × String)),
      (∀ k, containsKey cs k = containsKey cs0 k) →
      (∀ a, pidsOf cs a = pidsOf cs0 a) →
      (∃ jp ∈ items, containsKey cs0 jp.2 = true ∧ jp.2 ∈ cyc) →
      (fixRefsGo fuel cs g items).ok = false := by
  intro fuel
  induction fuel with
  | zero => intro cs g items _ _ _; rfl
  | succ f ih =>
    intro cs g items hkeys hpids hbad
    match items with
    | [] =>
      obtain ⟨jp, hjp, _⟩ := hbad
      cases hjp
    | (j, pid) :: rest =>
      obtain ⟨jp, hjp, hbpid, hbcyc⟩ := hbad
      by_cases hc : containsKey cs pid
      · have hkeys1 : ∀ k, containsKey (setInstParent cs g j) k = containsKey cs0 k :=
          fun k => by rw [containsKey_setInstParent]; exact hkeys k
        have hpids1 : ∀ a, pidsOf (setInstParent cs g j) a = pidsOf cs0 a :=
          fun a => by rw [pidsOf_setInstParent]; exact hpids a
        rcases List.mem_cons.mp hjp with heq | hmem
        · have hpidcyc : pid ∈ cyc := by
            rw [heq] at hbcyc
            exact hbcyc
          have hbad2 : ∃ jp2 ∈ instIdx (setInstParent cs g j) pid,
              containsKey cs0 jp2.2 = true ∧ jp2.2 ∈ cyc := by
            obtain ⟨p, hpmem, hpck, hpcyc⟩ := trapped_spec htr pid hpidcyc
            have hmem2 : p ∈ pidsOf (setInstParent cs g j) pid := by
              rw [hpids1]
              exact hpmem
            obtain ⟨jx, hjx⟩ := List.mem_iff_getElem?.mp hmem2
            refine ⟨(jx, p), ?_, hpck, hpcyc⟩
            unfold instIdx
            exact List.mk_mem_enum_iff_getElem?.mpr hjx
          have hr : (fixRefsGo f (setInstParent cs g j) pid
              (instIdx (setInstParent cs g j) pid)).ok = false :=
            ih _ pid _ hkeys1 hpids1 hbad2
          simp only [fixRefsGo, hc, if_true, hr]
          simp only [Bool.false_eq_true, if_false]
        · by_cases h2 : (fixRefsGo f (setInstParent cs g j) pid
              (instIdx (setInstParent cs g j) pid)).ok
          · have hkeys2 : ∀ k, containsKey (fixRefsGo f (setInstParent cs g j) pid
                (instIdx (setInstParent cs g j) pid)).comps k = containsKey cs0 k :=
              fun k => by rw [fixRefsGo_keys]; exact hkeys1 k
            have hpids2 : ∀ a, pidsOf (fixRefsGo f (setInstParent cs g j) pid
                (instIdx (setInstParent cs g j) pid)).comps a = pidsOf cs0 a :=
              fun a => by rw [fixRefsGo_pids]; exact hpids1 a
            have hr2 : (fixRefsGo f (fixRefsGo f (setInstParent cs g j) pid
                (instIdx (setInstParent cs g j) pid)).comps g rest).ok = false :=
              ih _ g rest hkeys2 hpids2 ⟨jp, hmem, hbpid, hbcyc⟩
            simp only [fixRefsGo, hc, if_true, h2, hr2]
          · simp only [fixRefsGo, hc, if_true, h2]
            simp only [Bool.false_eq_true, if_false]
      · rcases List.mem_cons.mp hjp with heq | hmem
        · exfalso
          apply hc
          rw [hkeys]
          rw [heq] at hbpid
          exact hbpid
        · simp only [fixRefsGo, hc]
          simp only [Bool.false_eq_true, if_false]
          exact ih cs g rest hkeys hpids ⟨jp, hmem, hbpid, hbcyc⟩

theorem fixRefsC_trapped (cyc : List String) (cs0 cs : Components)
    (htr : trapped cs0 cyc = true)
    (hkeys : ∀ k, containsKey cs k = containsKey cs0 k)
    (hpids : ∀ a, pidsOf cs a = pidsOf cs0 a)
    (g : String) (hg : g ∈ cyc) (fuel : Nat) :
    (fixRefsC fuel cs g).ok = false := by
  have hbad : ∃ jp ∈ instIdx cs g, containsKey cs0 jp.2 = true ∧ jp.2 ∈ cyc := by
    obtain ⟨p, hpmem, hpck, hpcyc⟩ := trapped_spec htr g hg
    have hmem2 : p ∈ pidsOf cs g := by
      rw [hpids]
      exact hpmem
    obtain ⟨jx, hjx⟩ := List.mem_iff_getElem?.mp hmem2
    refine ⟨(jx, p), ?_, hpck, hpcyc⟩
    unfold instIdx
    exact List.mk_mem_enum_iff_getElem?.mpr hjx
  exact fixRefsGo_trapped cyc cs0 htr fuel cs g (instIdx cs g) hkeys hpids hbad

theorem passComps_trapped (cyc : List String) (cs0 : Components)
    (htr : trapped cs0 cyc = true) (fuel : Nat) :
    ∀ (cs : Components) (keys : List String),
      (∀ k, containsKey cs k = containsKey cs0 k) →
      (∀ a, pidsOf cs a = pidsOf cs0 a) →
      (∃ k ∈ keys, k ∈ cyc) →
      (passComps fuel cs keys).ok = false := by
  intro cs keys
  induction keys generalizing cs with
  | nil =>
    intro _ _ hbad
    obtain ⟨k, hk, _⟩ := hbad
    cases hk
  | cons k1 rest ih =>
    intro hkeys hpids hbad
    by_cases h : (fixRefsC fuel cs k1).ok
    · obtain ⟨k, hk, hkcyc⟩ := hbad
      rcases List.mem_cons.mp hk with heq | hmem
      · exfalso
        rw [heq] at hkcyc
        rw [fixRefsC_trapped cyc cs0 cs htr hkeys hpids k1 hkcyc fuel] at h
        cases h
      · have hkeys2 : ∀ k2, containsKey (fixRefsC fuel cs k1).comps k2 = containsKey cs0 k2 :=
          fun k2 => by rw [fixRefsC_keys]; exact hkeys k2
        have hpids2 : ∀ a, pidsOf (fixRefsC fuel cs k1).comps a = pidsOf cs0 a :=
          fun a => by rw [fixRefsC_pids]; exact hpids a
        have hr2 := ih _ hkeys2 hpids2 ⟨k, hmem, hkcyc⟩
        simp only [passComps, h, if_true, hr2]
    · simp only [passComps, h]
      simp only [Bool.false_eq_true, if_false]

theorem fixRefsPass_trapped (cyc : List String) (cs : Components)
    (gs : List Group) (fuel : Nat)
    (htr : trapped cs cyc = true) (hne : cyc ≠ []) :
    (fixRefsPass fuel cs gs).ok = false := by
  obtain ⟨g0, hg0⟩ := List.exists_mem_of_ne_nil cyc hne
  obtain ⟨p, hpmem, hpck, hpcyc⟩ := trapped_spec htr g0 hg0
  have hfail : (passComps fuel cs (cs.map (fun kc => kc.1))).ok = false :=
    passComps_trapped cyc cs htr fuel cs _ (fun k => rfl) (fun a => rfl)
      ⟨p, mem_keys_of_containsKey hpck, hpcyc⟩
  simp only [fixRefsPass, hfail]
  simp only [Bool.false_eq_true, if_false]

/-! ## Propagator lemmas -/

theorem fixSurface_eq (pm : Material) (s : Surface) :
    fixSurface pm s =
      ⟨if s.frontMaterial.name == "" then pm else s.frontMaterial,
       if s.backMaterial.name == "" then pm else s.backMaterial,
       s.layerName⟩ := by
  unfold fixSurface
  by_cases hf : s.frontMaterial.name == "" <;>
    by_cases hb : s.backMaterial.name == "" <;>
      simp [hf, hb]

theorem fixSurface_idem (pm : Material) (s : Surface) :
    fixSurface pm (fixSurface pm s) = fixSurface pm s := by
  by_cases hf : s.frontMaterial.name == "" <;>
    by_cases hb : s.backMaterial.name == "" <;>
      by_cases hp : pm.name == "" <;>
        simp [fixSurface_eq, hf, hb, hp]

theorem map_fixSurface_idem (pm : Material) (ss : List Surface) :
    (ss.map (fixSurface pm)).map (fixSurface pm) = ss.map (fixSurface pm) := by
  rw [List.map_map]
  apply List.map_congr_left
  intro s _
  exact fixSurface_idem pm s

theorem fixGroups_nil (pm : Material) : fixGroups pm [] = [] := by
  simp [fixGroups]

theorem fixGroups_cons (pm : Material) (g : Group) (rest : List Group) :
    fixGroups pm (g :: rest) =
      { g with
        material := if g.material.name == "" then pm else g.material,
        surfaces :=
          g.surfaces.map (fixSurface (if g.material.name == "" then pm else g.material)),
        groups :=
          fixGroups (if g.material.name == "" then pm else g.material) g.groups }
        :: fixGroups pm rest := by
  simp [fixGroups]

theorem fixGroups_idem : ∀ (pm : Material) (gs : List Group),
    fixGroups pm (fixGroups pm gs) = fixGroups pm gs := by
  intro pm gs
  induction pm, gs using fixGroups.induct with
  | case1 pm => rw [fixGroups_nil, fixGroups_nil]
  | case2 pm g rest m1 ihg ihrest =>
    obtain ⟨n, m, ss, gs0, is⟩ := g
    unfold_let m1 at ihg
    rw [fixGroups_cons, fixGroups_cons]
    by_cases hm : m.name == ""
    · by_cases hp : pm.name == "" <;>
        simp_all [map_fixSurface_idem, fixSurface_idem]
    · simp_all [map_fixSurface_idem, fixSurface_idem]

theorem fixMaterialRefs_idem (g : Group) :
    fixMaterialRefs (fixMaterialRefs g) = fixMaterialRefs g := by
  unfold fixMaterialRefs
  simp [map_fixSurface_idem, fixGroups_idem, fixSurface_idem]

theorem fixGroups_append (pm : Material) (xs ys : List Group) :
    fixGroups pm (xs ++ ys) = fixGroups pm xs ++ fixGroups pm ys := by
  induction xs with
  | nil => simp [fixGroups_nil]
  | cons g rest ih => rw [List.cons_append, fixGroups_cons, fixGroups_cons, ih]; rfl

theorem fixGroups_length (pm : Material) (gs : List Group) :
    (fixGroups pm gs).length = gs.length := by
  induction gs with
  | nil => simp [fixGroups_nil]
  | cons g rest ih => rw [fixGroups_cons]; simp [ih]

theorem surfPres_fixSurface (pm : Material) (s : Surface) :
    surfPres s (fixSurface pm s) = true := by
  rw [fixSurface_eq]
  unfold surfPres
  by_cases hf : s.frontMaterial.name == "" <;>
    by_cases hb : s.backMaterial.name == "" <;>
      simp [hf, hb]

theorem surfsPres_map (pm : Material) (ss : List Surface) :
    surfsPres ss (ss.map (fixSurface pm)) = true := by
  induction ss with
  | nil => rfl
  | cons s rest ih =>
    simp only [List.map_cons, surfsPres, Bool.and_eq_true]
    exact ⟨surfPres_fixSurface pm s, ih⟩

theorem groupsPres_fixGroups : ∀ (pm : Material) (gs : List Group),
    groupsPres gs (fixGroups pm gs) = true := by
  intro pm gs
  induction pm, gs using fixGroups.induct with
  | case1 pm => rw [fixGroups_nil]; simp [groupsPres]
  | case2 pm g rest m1 ihg ihrest =>
    unfold_let m1 at ihg
    rw [fixGroups_cons]
    unfold groupsPres
    simp only [Bool.and_eq_true]
    refine ⟨⟨⟨?_, ?_⟩, ?_⟩, ?_⟩
    · by_cases hm : g.material.name == "" <;> simp [hm]
    · exact surfsPres_map _ g.surfaces
    · simpa using ihg
    · exact ihrest

/-! ## Instances with an unknown `ParentID` are never written -/

theorem setInstParent_untouched {cs : Components} {g : String} {j : Nat}
    {gX : String} {jX : Nat} (h : ¬(gX = g ∧ jX = j)) :
    (instsOf (setInstParent cs g j) gX)[jX]? = (instsOf cs gX)[jX]? := by
  rw [instsOf_setInstParent]
  by_cases hg : gX = g
  · rw [if_pos hg, setParentAt_getElem?, if_neg (fun hj => h ⟨hg, hj⟩)]
  · rw [if_neg hg]

theorem fixRefsGo_untouched (fuel : Nat) :
    ∀ (cs : Components) (g : String) (items : List (Nat × String))
      (gX : String) (jX : Nat) (i0 : Inst),
      itemsGood cs g items →
      (instsOf cs gX)[jX]? = some i0 →
      containsKey cs i0.parentID = false →
      (instsOf (fixRefsGo fuel cs g items).comps gX)[jX]? = some i0 := by
  induction fuel with
  | zero => intro cs g items gX jX i0 _ hx _; exact hx
  | succ f ih =>
    intro cs g items gX jX i0 hgood hx hunk
    match items with
    | [] => exact hx
    | (j, pid) :: rest =>
      by_cases hc : containsKey cs pid
      · have hne : ¬(gX = g ∧ jX = j) := by
          rintro ⟨hg, hj⟩
          subst hg
          subst hj
          have hpid : (pidsOf cs gX)[jX]? = some pid :=
            hgood (jX, pid) (List.mem_cons_self _ _)
          rw [pids_getElem?, hx] at hpid
          have hpi : i0.parentID = pid := by simpa using hpid
          rw [hpi, hc] at hunk
          cases hunk
        have hx1 : (instsOf (setInstParent cs g j) gX)[jX]? = some i0 := by
          rw [setInstParent_untouched hne]
          exact hx
        have hunk1 : containsKey (setInstParent cs g j) i0.parentID = false := by
          rw [containsKey_setInstParent]
          exact hunk
        have hx2 : (instsOf (fixRefsGo f (setInstParent cs g j) pid
            (instIdx (setInstParent cs g j) pid)).comps gX)[jX]? = some i0 :=
          ih _ pid _ gX jX i0 (itemsGood_instIdx _ pid) hx1 hunk1
        have hunk2 : containsKey (fixRefsGo f (setInstParent cs g j) pid
            (instIdx (setInstParent cs g j) pid)).comps i0.parentID = false := by
          rw [fixRefsGo_keys]
          exact hunk1
        by_cases h2 : (fixRefsGo f (setInstParent cs g j) pid
            (instIdx (setInstParent cs g j) pid)).ok
        · simp only [fixRefsGo, hc, if_true, h2]
          exact ih _ g rest gX jX i0
            (itemsGood_of_pids_eq
              (fun a => by rw [fixRefsGo_pids, pidsOf_setInstParent])
              (itemsGood_tail hgood))
            hx2 hunk2
        · simp only [fixRefsGo, hc, if_true, h2]
          simp only [Bool.false_eq_true, if_false]
          exact hx2
      · simp only [fixRefsGo, hc]
        simp only [Bool.false_eq_true, if_false]
        exact ih cs g rest gX jX i0 (itemsGood_tail hgood) hx hunk

theorem fixRefsC_untouched (fuel : Nat) {cs : Components} (g : String)
    {gX : String} {jX : Nat} {i0 : Inst}
    (hx : (instsOf cs gX)[jX]? = some i0)
    (hunk : containsKey cs i0.parentID = false) :
    (instsOf (fixRefsC fuel cs g).comps gX)[jX]? = some i0 :=
  fixRefsGo_untouched fuel cs g (instIdx cs g) gX jX i0
    (itemsGood_instIdx cs g) hx hunk

theorem passComps_untouched (fuel : Nat) :
    ∀ (cs : Components) (keys : List String) {gX : String} {jX : Nat} {i0 : Inst},
      (instsOf cs gX)[jX]? = some i0 →
      containsKey cs i0.parentID = false →
      (instsOf (passComps fuel cs keys).comps gX)[jX]? = some i0 := by
  intro cs keys
  induction keys generalizing cs with
  | nil => intro gX jX i0 hx _; exact hx
  | cons k rest ih =>
    intro gX jX i0 hx hunk
    by_cases h : (fixRefsC fuel cs k).ok
    · simp only [passComps, h, if_true]
      exact ih _ (fixRefsC_untouched fuel k hx hunk)
        (by rw [fixRefsC_keys]; exact hunk)
    · simp only [passComps, h]
      simp only [Bool.false_eq_true, if_false]
      exact fixRefsC_untouched fuel k hx hunk

theorem grpGo_untouched (fuel : Nat) :
    ∀ (cs : Components) (l : List Inst) {gX : String} {jX : Nat} {i0 : Inst},
      (instsOf cs gX)[jX]? = some i0 →
      containsKey cs i0.parentID = false →
      (instsOf (grpGo fuel cs l).comps gX)[jX]? = some i0 := by
  intro cs l
  induction l generalizing cs with
  | nil => intro gX jX i0 hx _; exact hx
  | cons i rest ih =>
    intro gX jX i0 hx hunk
    by_cases hc : containsKey cs i.parentID
    · by_cases h2 : (fixRefsC fuel cs i.parentID).ok
      · simp only [grpGo, hc, if_true, h2]
        exact ih _ (fixRefsC_untouched fuel i.parentID hx hunk)
          (by rw [fixRefsC_keys]; exact hunk)
      · simp only [grpGo, hc, if_true, h2]
        simp only [Bool.false_eq_true, if_false]
        exact fixRefsC_untouched fuel i.parentID hx hunk
    · simp only [grpGo, hc]
      simp only [Bool.false_eq_true, if_false]
      exact ih cs hx hunk

theorem groupLoop_keys (fuel : Nat) (inherit : Bool) :
    ∀ (cs : Components) (gs : List Group) (k : String),
      containsKey (groupLoop fuel inherit cs gs).comps k = containsKey cs k := by
  intro cs gs
  induction gs generalizing cs with
  | nil => intro k; rfl
  | cons g rest ih =>
    intro k
    by_cases h : (grpGo fuel cs g.instances).ok
    · simp only [groupLoop, h, if_true]
      rw [ih, grpGo_keys]
    · simp only [groupLoop, h]
      simp only [Bool.false_eq_true, if_false]
      exact grpGo_keys fuel cs g.instances k

theorem groupLoop_untouched (fuel : Nat) (inherit : Bool) :
    ∀ (cs : Components) (gs : List Group) {gX : String} {jX : Nat} {i0 : Inst},
      (instsOf cs gX)[jX]? = some i0 →
      containsKey cs i0.parentID = false →
      (instsOf (groupLoop fuel inherit cs gs).comps gX)[jX]? = some i0 := by
  intro cs gs
  induction gs generalizing cs with
  | nil => intro gX jX i0 hx _; exact hx
  | cons g rest ih =>
    intro gX jX i0 hx hunk
    by_cases h : (grpGo fuel cs g.instances).ok
    · simp only [groupLoop, h, if_true]
      exact ih _ (grpGo_untouched fuel cs g.instances hx hunk)
        (by rw [grpGo_keys]; exact hunk)
    · simp only [groupLoop, h]
      simp only [Bool.false_eq_true, if_false]
      exact grpGo_untouched fuel cs g.instances hx hunk

theorem resolveTop_unknown {cs : Components} {l : List Inst} {k : Nat} {i : Inst}
    (h : l[k]? = some i) (hc : containsKey cs i.parentID = false) :
    (resolveTop cs l)[k]? = some i := by
  unfold resolveTop
  rw [List.getElem?_map, h]
  simp [hc]

/-! ## Size bookkeeping for the populated scene graph -/

theorem setInstParent_length (cs : Components) (g : String) (j : Nat) :
    (setInstParent cs g j).length = cs.length := by
  induction cs with
  | nil => rfl
  | cons kc rest ih =>
    by_cases hk : kc.1 == g <;> simp [setInstParent, hk, ih]

theorem fixRefsGo_length (fuel : Nat) :
    ∀ (cs : Components) (g : String) (items : List (Nat × String)),
      (fixRefsGo fuel cs g items).comps.length = cs.length := by
  induction fuel with
  | zero => intro cs g items; rfl
  | succ f ih =>
    intro cs g items
    match items with
    | [] => rfl
    | (j, pid) :: rest =>
      by_cases hc : containsKey cs pid
      · by_cases h2 : (fixRefsGo f (setInstParent cs g j) pid
            (instIdx (setInstParent cs g j) pid)).ok
        · simp only [fixRefsGo, hc, if_true, h2]
          rw [ih, ih, setInstParent_length]
        · simp only [fixRefsGo, hc, if_true, h2]
          simp only [Bool.false_eq_true, if_false]
          rw [ih, setInstParent_length]
      · simp only [fixRefsGo, hc]
        simp only [Bool.false_eq_true, if_false]
        exact ih cs g rest

theorem passComps_length (fuel : Nat) :
    ∀ (cs : Components) (keys : List String),
      (passComps fuel cs keys).comps.length = cs.length := by
  intro cs keys
  induction keys generalizing cs with
  | nil => rfl
  | cons k rest ih =>
    by_cases h : (fixRefsC fuel cs k).ok
    · simp only [passComps, h, if_true]
      rw [ih]
      exact fixRefsGo_length fuel cs k (instIdx cs k)
    · simp only [passComps, h]
      simp only [Bool.false_eq_true, if_false]
      exact fixRefsGo_length fuel cs k (instIdx cs k)

theorem grpGo_comps_length (fuel : Nat) :
    ∀ (cs : Components) (l : List Inst),
      (grpGo fuel cs l).comps.length = cs.length := by
  intro cs l
  induction l generalizing cs with
  | nil => rfl
  | cons i rest ih =>
    by_cases hc : containsKey cs i.parentID
    · by_cases h2 : (fixRefsC fuel cs i.parentID).ok
      · simp only [grpGo, hc, if_true, h2]
        rw [ih]
        exact fixRefsGo_length fuel cs i.parentID (instIdx cs i.parentID)
      · simp only [grpGo, hc, if_true, h2]
        simp only [Bool.false_eq_true, if_false]
        exact fixRefsGo_length fuel cs i.parentID (instIdx cs i.parentID)
    · simp only [grpGo, hc]
      simp only [Bool.false_eq_true, if_false]
      exact ih cs

theorem groupLoop_comps_length (fuel : Nat) (inherit : Bool) :
    ∀ (cs : Components) (gs : List Group),
      (groupLoop fuel inherit cs gs).comps.length = cs.length := by
  intro cs gs
  induction gs generalizing cs with
  | nil => rfl
  | cons g rest ih =>
    by_cases h : (grpGo fuel cs g.instances).ok
    · simp only [groupLoop, h, if_true]
      rw [ih, grpGo_comps_length]
    · simp only [groupLoop, h]
      simp only [Bool.false_eq_true, if_false]
      exact grpGo_comps_length fuel cs g.instances

theorem groupLoop_groups_length (fuel : Nat) (inherit : Bool) :
    ∀ (cs : Components) (gs : List Group),
      (groupLoop fuel inherit cs gs).groups.length = gs.length := by
  intro cs gs
  induction gs generalizing cs with
  | nil => rfl
  | cons g rest ih =>
    by_cases h : (grpGo fuel cs g.instances).ok
    · simp only [groupLoop, h, if_true, List.length_cons]
      rw [ih]
    · simp only [groupLoop, h]
      simp only [Bool.false_eq_true, if_false]
      simp

theorem addComponents_length :
    ∀ (l : List Component) (cs cs1 : Components),
      addComponents cs l = some cs1 → cs1.length = cs.length + l.length := by
  intro l
  induction l with
  | nil =>
    intro cs cs1 h
    simp only [addComponents, Option.some.injEq] at h
    subst h
    simp
  | cons c rest ih =>
    intro cs cs1 h
    simp only [addComponents] at h
    cases hd : dictAdd cs c.guid c with
    | none =>
      rw [hd] at h
      cases h
    | some cs2 =>
      rw [hd] at h
      have hlen : cs2.length = cs.length + 1 := by
        unfold dictAdd at hd
        by_cases hck : containsKey cs c.guid
        · rw [if_pos hck] at hd
          cases hd
        · rw [if_neg hck] at hd
          injection hd with hd2
          subst hd2
          simp
      have h2 := ih cs2 cs1 h
      rw [h2, hlen]
      simp only [List.length_cons]
      omega

/-! ## Inversion of a returning `LoadModel` call -/

theorem loadModel_ret_inv {fuel : Nat} {f : FileInput} {inherit : Bool}
    {st : SketchUp} {rv : Bool}
    (h : loadModel fuel f inherit = LoadOutcome.ret st rv) :
    ∃ comps,
      buildMaterials f.fileMaterials = some st.materials ∧
      buildComponents f.fileComponents = some comps ∧
      (passComps fuel comps (comps.map (fun kc => kc.1))).ok = true ∧
      (groupLoop fuel inherit
        (passComps fuel comps (comps.map (fun kc => kc.1))).comps f.fileGroups).ok = true ∧
      st.components = (groupLoop fuel inherit
        (passComps fuel comps (comps.map (fun kc => kc.1))).comps f.fileGroups).comps ∧
      st.groups = (groupLoop fuel inherit
        (passComps fuel comps (comps.map (fun kc => kc.1))).comps f.fileGroups).groups ∧
      st.instances = resolveTop comps f.fileInstances ∧
      st.surfaces = f.fileSurfaces ∧
      st.layers = f.fileLayers ∧
      st.curves = f.fileCurves ∧
      st.edges = f.fileEdges ∧
      st.moreRecentFileVersion = (f.status == SUModelLoadStatus.successMoreRecent) ∧
      rv = true := by
  unfold loadModel at h
  cases hm : buildMaterials f.fileMaterials with
  | none =>
    rw [hm] at h
    cases h
  | some mats =>
    rw [hm] at h
    cases hcc : buildComponents f.fileComponents with
    | none =>
      rw [hcc] at h
      cases h
    | some comps =>
      rw [hcc] at h
      by_cases h1 : (passComps fuel comps (comps.map (fun kc => kc.1))).ok
      · simp only [h1, if_true] at h
        by_cases h2 : (groupLoop fuel inherit
            (passComps fuel comps (comps.map (fun kc => kc.1))).comps f.fileGroups).ok
        · simp only [h2, if_true] at h
          rw [LoadOutcome.ret.injEq] at h
          obtain ⟨hst, hrv⟩ := h
          subst hst
          subst hrv
          exact ⟨comps, rfl, rfl, h1, h2, rfl, rfl, rfl, rfl, rfl, rfl, rfl, rfl, rfl⟩
        · simp only [h2, Bool.false_eq_true, if_false] at h
          cases h
      · simp only [h1, Bool.false_eq_true, if_false] at h
        cases h

/-! ## Dictionary lemmas and the material-deduplication invariant -/

theorem lookupD_cons {α : Type} (k : String) (v : α) (rest : List (String × α))
    (n : String) :
    lookupD ((k, v) :: rest) n = if k == n then some v else lookupD rest n := by
  by_cases h : k == n <;> simp [lookupD, List.find?_cons, h]

theorem lookupD_eq_none {α : Type} {d : List (String × α)} {n : String}
    (h : containsKey d n = false) : lookupD d n = none := by
  induction d with
  | nil => rfl
  | cons kc rest ih =>
    obtain ⟨k, v⟩ := kc
    rw [containsKey_cons, Bool.or_eq_false_iff] at h
    rw [lookupD_cons, if_neg (by simp [h.1]), ih h.2]

theorem containsKey_append {α : Type} (d1 d2 : List (String × α)) (n : String) :
    containsKey (d1 ++ d2) n = (containsKey d1 n || containsKey d2 n) := by
  simp [containsKey, List.any_append]

theorem lookupD_append_left {α : Type} {d1 : List (String × α)}
    (d2 : List (String × α)) {n : String} (h : containsKey d1 n = true) :
    lookupD (d1 ++ d2) n = lookupD d1 n := by
  induction d1 with
  | nil => cases h
  | cons kc rest ih =>
    obtain ⟨k, v⟩ := kc
    by_cases hk : k == n
    · rw [List.cons_append, lookupD_cons, lookupD_cons, if_pos hk, if_pos hk]
    · rw [containsKey_cons] at h
      have h2 : containsKey rest n = true := by
        rcases Bool.or_eq_true_iff.mp h with h3 | h3
        · rw [h3] at hk
          cases hk rfl
        · exact h3
      rw [List.cons_append, lookupD_cons, lookupD_cons, if_neg hk, if_neg hk, ih h2]

theorem lookupD_append_right {α : Type} {d1 : List (String × α)}
    (d2 : List (String × α)) {n : String} (h : containsKey d1 n = false) :
    lookupD (d1 ++ d2) n = lookupD d2 n := by
  induction d1 with
  | nil => rfl
  | cons kc rest ih =>
    obtain ⟨k, v⟩ := kc
    rw [containsKey_cons, Bool.or_eq_false_iff] at h
    rw [List.cons_append, lookupD_cons, if_neg (by simp [h.1]), ih h.2]

theorem not_mem_keys_of_not_containsKey {α : Type} {d : List (String × α)}
    {n : String} (h : containsKey d n = false) :
    n ∉ d.map (fun kv => kv.1) := by
  intro hmem
  rw [List.mem_map] at hmem
  obtain ⟨kv, hkv, hk⟩ := hmem
  have : containsKey d n = true := by
    unfold containsKey
    rw [List.any_eq_true]
    exact ⟨kv, hkv, by simp [hk]⟩
  rw [this] at h
  cases h

theorem addMaterials_spec :
    ∀ (ms : List Material) (d : MDict), (d.map (fun kv => kv.1)).Nodup →
      ∃ d1, addMaterials d ms = some d1 ∧
        (d1.map (fun kv => kv.1)).Nodup ∧
        (∀ n, containsKey d n = true → lookupD d1 n = lookupD d n) ∧
        (∀ n, containsKey d n = false →
          lookupD d1 n = ms.find? (fun m => m.name == n)) := by
  intro ms
  induction ms with
  | nil =>
    intro d hnd
    refine ⟨d, rfl, hnd, fun n _ => rfl, fun n hn => ?_⟩
    rw [lookupD_eq_none hn]
    rfl
  | cons m rest ih =>
    intro d hnd
    by_cases hck : containsKey d m.name
    · obtain ⟨d1, hadd, hnd1, hkeep, hnew⟩ := ih d hnd
      refine ⟨d1, ?_, hnd1, hkeep, ?_⟩
      · simp only [addMaterials, hck, if_true]
        exact hadd
      · intro n hn
        rw [hnew n hn, List.find?_cons]
        have hmn : (m.name == n) = false := by
          rw [beq_eq_false_iff_ne]
          intro he
          rw [he] at hck
          rw [hn] at hck
          cases hck
        rw [hmn]
    · have hck2 : containsKey d m.name = false := by simpa using hck
      have hd2 : dictAdd d m.name m = some (d ++ [(m.name, m)]) := by
        unfold dictAdd
        rw [if_neg hck]
      have hnd2 : ((d ++ [(m.name, m)]).map (fun kv => kv.1)).Nodup := by
        rw [List.map_append]
        simp only [List.map_cons, List.map_nil]
        rw [List.nodup_append]
        refine ⟨hnd, List.nodup_singleton _, ?_⟩
        intro x hx
        simp only [List.mem_singleton]
        intro he
        rw [he] at hx
        exact not_mem_keys_of_not_containsKey hck2 hx
      obtain ⟨d1, hadd, hnd1, hkeep, hnew⟩ := ih (d ++ [(m.name, m)]) hnd2
      refine ⟨d1, ?_, hnd1, ?_, ?_⟩
      · simp only [addMaterials, hck]
        simp only [Bool.false_eq_true, if_false]
        rw [hd2]
        exact hadd
      · intro n hn
        have hn2 : containsKey (d ++ [(m.name, m)]) n = true := by
          rw [containsKey_append, hn]
          rfl
        rw [hkeep n hn2, lookupD_append_left _ hn]
      · intro n hn
        by_cases hmn : m.name == n
        · have he : m.name = n := by simpa using hmn
          have hn2 : containsKey (d ++ [(m.name, m)]) n = true := by
            rw [containsKey_append, hn, containsKey_cons, hmn]
            rfl
          rw [hkeep n hn2, lookupD_append_right _ hn, lookupD_cons, if_pos hmn,
            List.find?_cons, hmn]
        · have hmn2 : (m.name == n) = false := by simpa using hmn
          have hn2 : containsKey (d ++ [(m.name, m)]) n = false := by
            rw [containsKey_append, hn, containsKey_cons, hmn2]
            rfl
          rw [hnew n hn2, List.find?_cons, hmn2]

theorem resolveTop_length (cs : Components) (l : List Inst) :
    (resolveTop cs l).length = l.length := by
  simp [resolveTop]

/-! ## The claims -/

/-- Claim C1, counterexample: for the concrete cyclic definition graph
`exCycle` (definition `A` owning an instance whose `ParentID` names `B`,
and `B` owning an instance whose `ParentID` names `A`), the resolution pass
run by `LoadModel` does not terminate: no recursion budget whatsoever
completes it, because `FixRefs` maintains no set of already-processed
definitions and descends unconditionally.  This falsifies the claimed
termination guarantee. -/
theorem claimC1_counterexample :
    ¬ ∃ fuel, (fixRefsPass fuel exCycle []).ok = true := by
  rintro ⟨fuel, h⟩
  rw [fixRefsPass_trapped ["A", "B"] exCycle [] fuel (by decide) (by decide)] at h
  cases h

/-- Claim C1 (corrected): the resolution pass run by `LoadModel` maintains
no set of already-processed `ComponentDefinition` identifiers; on every
definition graph containing a trapped set of definitions (each member owns
an instance whose `ParentID` is a dictionary key naming another member —
the situation every definition cycle produces), the pass exhausts every
recursion budget, i.e. it never terminates, and `LoadModel` never returns,
so no final `Parent`-link state exists. -/
theorem claimC1_amended (cs : Components) (gs : List Group)
    (cyc : List String) (htr : trapped cs cyc = true) (hne : cyc ≠ [])
    (fuel : Nat) : (fixRefsPass fuel cs gs).ok = false :=
  fixRefsPass_trapped cyc cs gs fuel htr hne

/-- Witness for the corrected claim C1 at the concrete two-definition
cycle. -/
theorem claimC1_witness :
    trapped exCycle ["A", "B"] = true ∧ (["A", "B"] : List String) ≠ [] ∧
    (fixRefsPass 9 exCycle []).ok = false :=
  ⟨by decide, by decide, claimC1_amended exCycle [] ["A", "B"] (by decide) (by decide) 9⟩

/-- Claim C2, counterexample: in the diamond graph `exDiamond` where
definitions `A` and `B` each place one instance of definition `C`, a full
resolution pass enters `C`'s instance-list expansion three times (once as a
top-level root of the component loop and once per referencing instance),
not exactly once as claimed. -/
theorem claimC2_counterexample :
    ((fixRefsPass 10 exDiamond []).trace.count "C") = 3 ∧ (3 : Nat) ≠ 1 := by
  constructor
  · decide
  · decide

/-- Claim C2 (corrected): no visited set deduplicates expansion — in the
diamond graph, one resolution pass expands the shared definition `C`'s
instance list once per referencing instance plus once as a top-level root,
i.e. three times, and this count is independent of the enumeration order of
the `Components` dictionary (all six orders produce it). -/
theorem claimC2_amended (cs : Components) (h : cs ∈ exDiamondOrders) :
    ((fixRefsPass 10 cs []).trace.count "C") = 3 := by
  fin_cases h <;> decide

/-- Witness for the corrected claim C2 at the first enumeration order. -/
theorem claimC2_witness :
    exDiamond ∈ exDiamondOrders ∧
    ((fixRefsPass 10 exDiamond []).trace.count "C") = 3 :=
  ⟨by decide, claimC2_amended exDiamond (by decide)⟩

/-- Claim C8 (code bug): `LoadModel`, `SaveAs` and `AppendToModel` release
the native model handle and terminate the API session on their single exit
path, and so does `WriteNewModel` when `SUModelCreate` succeeds; but
`WriteNewModel`'s early `return false` on a failed `SUModelCreate` (line
351) leaves the session initialized: that exit path performs neither
`SUModelRelease` nor `SUTerminate`, contradicting the claimed
release-on-every-exit-path discipline. -/
theorem claimC8_theorem :
    (APICall.apiRelease ∈ loadModelCalls ∧ APICall.apiTerminate ∈ loadModelCalls) ∧
    (APICall.apiRelease ∈ saveAsCalls ∧ APICall.apiTerminate ∈ saveAsCalls) ∧
    (APICall.apiRelease ∈ appendToModelCalls ∧
      APICall.apiTerminate ∈ appendToModelCalls) ∧
    (APICall.apiRelease ∈ writeNewModelCalls true ∧
      APICall.apiTerminate ∈ writeNewModelCalls true) ∧
    (writeNewModelCalls false = [APICall.apiInit, APICall.apiModelCreate] ∧
      APICall.apiTerminate ∉ writeNewModelCalls false ∧
      APICall.apiRelease ∉ writeNewModelCalls false ∧
      writeNewModelReturn false = false) := by
  decide

/-- Claim C10 (confirmed): `SaveAs` and `AppendToModel` overwrite
`MoreRecentFileVersion` from the status of the file they open, so a `true`
flag established by a prior load is silently reset to `false` when the
opened file's status is plain success; both calls return `true`. -/
theorem claimC10 (m : SketchUp) (status : SUModelLoadStatus)
    (version : SKPVersion) :
    ((saveAs m status version).1.moreRecentFileVersion =
      (status == SUModelLoadStatus.successMoreRecent)) ∧
    ((appendToModel m status).1.moreRecentFileVersion =
      (status == SUModelLoadStatus.successMoreRecent)) ∧
    ((saveAs { m with moreRecentFileVersion := true }
        SUModelLoadStatus.success version).1.moreRecentFileVersion = false) ∧
    ((appendToModel { m with moreRecentFileVersion := true }
        SUModelLoadStatus.success).1.moreRecentFileVersion = false) ∧
    (saveAs m status version).2 = true ∧
    (appendToModel m status).2 = true :=
  ⟨rfl, rfl, rfl, rfl, rfl, rfl⟩

/-- Claim C3, counterexample: loading `exCorruptFile`, whose status is the
corrupt-file failure kind, does not abort the load: the call returns `true`
(not a failure report) and the scene graph is populated from the extracted
tables instead of being discarded. -/
theorem claimC3_counterexample :
    loadReturnValue (loadModel 10 exCorruptFile false) = some true ∧
    (loadState (loadModel 10 exCorruptFile false)).map
      (fun st => (st.components.length, st.materials.length)) = some (1, 1) := by
  constructor
  · rfl
  · rfl

/-- Claim C3 (corrected): `LoadModel` inspects the load status only to set
`MoreRecentFileVersion`; for every status — the failure kinds included — it
proceeds with extraction and resolution, and whenever it returns it
returns `true`, with the scene graph populated from the file's tables; no
failure is ever reported through the boolean. -/
theorem claimC3_amended (fuel : Nat) (f : FileInput) (inherit : Bool)
    (st : SketchUp) (rv : Bool)
    (h : loadModel fuel f inherit = LoadOutcome.ret st rv) :
    rv = true ∧
    st.surfaces = f.fileSurfaces ∧ st.layers = f.fileLayers ∧
    st.curves = f.fileCurves ∧ st.edges = f.fileEdges ∧
    st.moreRecentFileVersion = (f.status == SUModelLoadStatus.successMoreRecent) := by
  obtain ⟨comps, _, _, _, _, _, _, _, hs, hl, hcv, he, hmr, hrv⟩ := loadModel_ret_inv h
  exact ⟨hrv, hs, hl, hcv, he, hmr⟩

/-- Witness for the corrected claim C3 at a concrete invalid-path file. -/
theorem claimC3_witness :
    loadModel 10 exEmptyInvalid false = LoadOutcome.ret (exState false) true ∧
    (true = true ∧
      (exState false).surfaces = exEmptyInvalid.fileSurfaces ∧
      (exState false).layers = exEmptyInvalid.fileLayers ∧
      (exState false).curves = exEmptyInvalid.fileCurves ∧
      (exState false).edges = exEmptyInvalid.fileEdges ∧
      (exState false).moreRecentFileVersion =
        (exEmptyInvalid.status == SUModelLoadStatus.successMoreRecent)) :=
  ⟨rfl, claimC3_amended 10 exEmptyInvalid false (exState false) true rfl⟩

theorem fixGroups_middle (pm : Material) (gs1 gs2 : List Group) (g : Group) :
    (fixGroups pm (gs1 ++ g :: gs2))[gs1.length]? =
      some { g with
        material := if g.material.name == "" then pm else g.material,
        surfaces :=
          g.surfaces.map (fixSurface (if g.material.name == "" then pm else g.material)),
        groups :=
          fixGroups (if g.material.name == "" then pm else g.material) g.groups } := by
  rw [fixGroups_append, fixGroups_cons]
  rw [List.getElem?_append_right (le_of_eq (fixGroups_length pm gs1))]
  rw [fixGroups_length, Nat.sub_self]
  simp

theorem map_fixSurface_middle (pm : Material) (ss1 ss2 : List Surface)
    (s : Surface) :
    ((ss1 ++ s :: ss2).map (fixSurface pm))[ss1.length]? =
      some (fixSurface pm s) := by
  rw [List.map_append, List.map_cons]
  rw [List.getElem?_append_right (le_of_eq (List.length_map _ _))]
  rw [List.length_map, Nat.sub_self]
  simp

/-- Claim C4 (confirmed): for a group `G` with explicit material `M1`
containing (at any position) a child group `G2` whose material slot is the
unset sentinel, where `G2` contains (at any position) a surface `S` with
unset front material and explicit back material `M2`, the propagation pass
gives `G2` the material `M1` and `S` the front material `M1` while leaving
`S`'s back material `M2`; and in general the pass never changes a group's
own material slot and only fills sentinel surface/group slots, never
overwriting an explicit value. -/
theorem claimC4 (M1 M2 sent sentF : Material) (G G2 : Group) (S : Surface)
    (nG n2 lay : String) (ssG ss1 ss2 : List Surface)
    (gs1 gs2 gs2i : List Group) (isG is2 : List Inst)
    (hM1 : (M1.name == "") = false) (hM2 : (M2.name == "") = false)
    (hsent : (sent.name == "") = true) (hsentF : (sentF.name == "") = true)
    (hS : S = ⟨sentF, M2, lay⟩)
    (hG2 : G2 = ⟨n2, sent, ss1 ++ S :: ss2, gs2i, is2⟩)
    (hG : G = ⟨nG, M1, ssG, gs1 ++ G2 :: gs2, isG⟩) :
    ((fixMaterialRefs G).groups[gs1.length]?).map (fun g => g.material) = some M1 ∧
    (((fixMaterialRefs G).groups[gs1.length]?).bind
        (fun g => g.surfaces[ss1.length]?)).map
      (fun s => (s.frontMaterial, s.backMaterial)) = some (M1, M2) ∧
    (∀ g : Group, (fixMaterialRefs g).material = g.material ∧
      surfsPres g.surfaces (fixMaterialRefs g).surfaces = true ∧
      groupsPres g.groups (fixMaterialRefs g).groups = true) := by
  subst hS
  subst hG2
  subst hG
  have e1 : (fixMaterialRefs
      ⟨nG, M1, ssG,
        gs1 ++ (⟨n2, sent, ss1 ++ (⟨sentF, M2, lay⟩ : Surface) :: ss2, gs2i, is2⟩ : Group) :: gs2,
        isG⟩).groups[gs1.length]? =
      some { material := M1,
             name := n2,
             surfaces := (ss1 ++ (⟨sentF, M2, lay⟩ : Surface) :: ss2).map (fixSurface M1),
             groups := fixGroups M1 gs2i,
             instances := is2 } := by
    show (fixGroups M1 (gs1 ++ _ :: gs2))[gs1.length]? = _
    rw [fixGroups_middle]
    simp only [hsent, if_true]
  refine ⟨?_, ?_, ?_⟩
  · rw [e1]
    rfl
  · rw [e1]
    simp only [Option.some_bind]
    show ((((ss1 ++ _ :: ss2).map (fixSurface M1))[ss1.length]?).map
      (fun s => (s.frontMaterial, s.backMaterial))) = _
    rw [map_fixSurface_middle]
    rw [fixSurface_eq]
    simp only [hsentF, if_true, hM2, Bool.false_eq_true, if_false]
    rfl
  · intro g
    exact ⟨rfl, surfsPres_map g.material g.surfaces,
      groupsPres_fixGroups g.material g.groups⟩

/-- Witness for the confirmed claim C4 at concrete materials and a
one-child, one-surface nesting. -/
theorem claimC4_witness :
    ((exM1.name == "") = false) ∧ ((exM2.name == "") = false) ∧
    ((exNoMat.name == "") = true) ∧
    (exSurf = ⟨exNoMat, exM2, "L"⟩) ∧
    (exG2 = ⟨"G2", exNoMat, [] ++ exSurf :: [], [], []⟩) ∧
    (exG = ⟨"G", exM1, [], [] ++ exG2 :: [], []⟩) ∧
    (((fixMaterialRefs exG).groups[([] : List Group).length]?).map
        (fun g => g.material) = some exM1 ∧
      (((fixMaterialRefs exG).groups[([] : List Group).length]?).bind
          (fun g => g.surfaces[([] : List Surface).length]?)).map
        (fun s => (s.frontMaterial, s.backMaterial)) = some (exM1, exM2) ∧
      (∀ g : Group, (fixMaterialRefs g).material = g.material ∧
        surfsPres g.surfaces (fixMaterialRefs g).surfaces = true ∧
        groupsPres g.groups (fixMaterialRefs g).groups = true)) :=
  ⟨rfl, rfl, rfl, rfl, rfl, rfl,
    claimC4 exM1 exM2 exNoMat exNoMat exG exG2 exSurf "G" "G2" "L" [] [] []
      [] [] [] [] [] rfl rfl rfl rfl rfl rfl rfl⟩

/-- Claim C5 (confirmed): when the resolution pass (`FixRefs` over all
components then all top-level groups) completes, running it a second time
with any budget leaves both the `Components` state and the groups' instance
lists exactly as the first run left them; and the material propagation pass
is idempotent on every group tree. -/
theorem claimC5 (fuel fuel2 : Nat) (cs : Components) (gs : List Group)
    (h : (fixRefsPass fuel cs gs).ok = true) :
    ((fixRefsPass fuel2 (fixRefsPass fuel cs gs).comps
        (fixRefsPass fuel cs gs).groups).comps = (fixRefsPass fuel cs gs).comps ∧
      (fixRefsPass fuel2 (fixRefsPass fuel cs gs).comps
        (fixRefsPass fuel cs gs).groups).groups = (fixRefsPass fuel cs gs).groups) ∧
    (∀ g : Group, fixMaterialRefs (fixMaterialRefs g) = fixMaterialRefs g) := by
  refine ⟨?_, fun g => fixMaterialRefs_idem g⟩
  by_cases h1 : (passComps fuel cs (cs.map (fun kc => kc.1))).ok
  · have h2 : (passGroups fuel
        (passComps fuel cs (cs.map (fun kc => kc.1))).comps gs).ok = true := by
      simp only [fixRefsPass, h1, if_true] at h
      exact h
    have hp1c : (fixRefsPass fuel cs gs).comps =
        (passGroups fuel (passComps fuel cs (cs.map (fun kc => kc.1))).comps gs).comps := by
      simp only [fixRefsPass, h1, if_true]
    have hp1g : (fixRefsPass fuel cs gs).groups =
        (passGroups fuel (passComps fuel cs (cs.map (fun kc => kc.1))).comps gs).groups := by
      simp only [fixRefsPass, h1, if_true]
    have hresF : resolvedAll
        (passGroups fuel (passComps fuel cs (cs.map (fun kc => kc.1))).comps gs).comps :=
      fun a b => passGroups_locRes fuel _ gs (passComps_resolvedAll fuel cs h1 a b)
    have hgrsF : groupsRes
        (passGroups fuel (passComps fuel cs (cs.map (fun kc => kc.1))).comps gs).comps
        (passGroups fuel (passComps fuel cs (cs.map (fun kc => kc.1))).comps gs).groups :=
      passGroups_establishes fuel _ gs h2
    rw [hp1c, hp1g]
    by_cases h3 : (passComps fuel2
        (passGroups fuel (passComps fuel cs (cs.map (fun kc => kc.1))).comps gs).comps
        ((passGroups fuel (passComps fuel cs (cs.map (fun kc => kc.1))).comps gs).comps.map
          (fun kc => kc.1))).ok
    · simp only [fixRefsPass, h3, if_true]
      rw [passComps_noop fuel2 _ _ hresF]
      obtain ⟨e1, e2⟩ := passGroups_noop fuel2 _ _ hresF hgrsF
      rw [e1, e2]
      exact ⟨rfl, rfl⟩
    · simp only [fixRefsPass, h3]
      simp only [Bool.false_eq_true, if_false]
      refine ⟨passComps_noop fuel2 _ _ hresF, ?_⟩
      trivial
  · exfalso
    simp only [fixRefsPass, h1, Bool.false_eq_true, if_false] at h

/-- Witness for the confirmed claim C5 at the concrete diamond graph. -/
theorem claimC5_witness :
    (fixRefsPass 10 exDiamond []).ok = true ∧
    (((fixRefsPass 8 (fixRefsPass 10 exDiamond []).comps
        (fixRefsPass 10 exDiamond []).groups).comps =
          (fixRefsPass 10 exDiamond []).comps ∧
      (fixRefsPass 8 (fixRefsPass 10 exDiamond []).comps
        (fixRefsPass 10 exDiamond []).groups).groups =
          (fixRefsPass 10 exDiamond []).groups) ∧
      (∀ g : Group, fixMaterialRefs (fixMaterialRefs g) = fixMaterialRefs g)) :=
  ⟨by rfl, claimC5 10 8 exDiamond [] (by rfl)⟩

/-- Claim C6 (confirmed): whenever `LoadModel` returns, it returns `true`,
and every instance whose `ParentID` matches no key of the `Components`
mapping is left exactly as extracted — its `Parent` link (initially
unresolved) is not written — both for top-level instances and for
instances owned by definitions. -/
theorem claimC6 (fuel : Nat) (f : FileInput) (inherit : Bool)
    (st : SketchUp) (rv : Bool)
    (h : loadModel fuel f inherit = LoadOutcome.ret st rv) :
    rv = true ∧
    (∀ (k : Nat) (i : Inst), f.fileInstances[k]? = some i →
      containsKey st.components i.parentID = false →
      st.instances[k]? = some i) ∧
    (∀ (comps : Components) (gX : String) (jX : Nat) (i0 : Inst),
      buildComponents f.fileComponents = some comps →
      (instsOf comps gX)[jX]? = some i0 →
      containsKey st.components i0.parentID = false →
      (instsOf st.components gX)[jX]? = some i0) := by
  obtain ⟨comps, hmats, hcomps, hok1, hok2, hcmp, hgrp, hinst, _, _, _, _, _, hrv⟩ :=
    loadModel_ret_inv h
  have hkeys : ∀ x, containsKey st.components x = containsKey comps x := by
    intro x
    rw [hcmp, groupLoop_keys, passComps_keys]
  refine ⟨hrv, ?_, ?_⟩
  · intro k i hk hunk
    rw [hinst]
    rw [hkeys] at hunk
    exact resolveTop_unknown hk hunk
  · intro comps2 gX jX i0 hcomps2 hx hunk
    have hceq : comps2 = comps := by
      have h2 := hcomps2.symm.trans hcomps
      injection h2
    subst hceq
    rw [hkeys] at hunk
    rw [hcmp]
    exact groupLoop_untouched fuel inherit _ f.fileGroups
      (passComps_untouched fuel comps2 _ hx hunk)
      (by rw [passComps_keys]; exact hunk)

/-- Witness for the confirmed claim C6 at a concrete file whose single
top-level instance references the unknown identifier `X`. -/
theorem claimC6_witness :
    loadModel 10 exUnknownRefFile false = LoadOutcome.ret exUnknownState true ∧
    (true = true ∧
      (∀ (k : Nat) (i : Inst), exUnknownRefFile.fileInstances[k]? = some i →
        containsKey exUnknownState.components i.parentID = false →
        exUnknownState.instances[k]? = some i) ∧
      (∀ (comps : Components) (gX : String) (jX : Nat) (i0 : Inst),
        buildComponents exUnknownRefFile.fileComponents = some comps →
        (instsOf comps gX)[jX]? = some i0 →
        containsKey exUnknownState.components i0.parentID = false →
        (instsOf exUnknownState.components gX)[jX]? = some i0)) :=
  ⟨rfl, claimC6 10 exUnknownRefFile false exUnknownState true rfl⟩

/-- Claim C7 (confirmed): whenever `LoadModel` returns, the
`MoreRecentFileVersion` flag is `true` exactly when the external library's
status signal was success-with-newer-version, and `false` for every other
status, while the scene graph is fully populated from the file's tables
(surface/layer/curve/edge collections taken over, and the instance, group
and component collections of the same sizes as the extracted tables);
the call still returns `true`. -/
theorem claimC7 (fuel : Nat) (f : FileInput) (inherit : Bool)
    (st : SketchUp) (rv : Bool)
    (h : loadModel fuel f inherit = LoadOutcome.ret st rv) :
    (st.moreRecentFileVersion = true ↔
      f.status = SUModelLoadStatus.successMoreRecent) ∧
    st.surfaces = f.fileSurfaces ∧ st.layers = f.fileLayers ∧
    st.curves = f.fileCurves ∧ st.edges = f.fileEdges ∧
    st.instances.length = f.fileInstances.length ∧
    st.groups.length = f.fileGroups.length ∧
    st.components.length = f.fileComponents.length ∧
    rv = true := by
  obtain ⟨comps, hmats, hcomps, hok1, hok2, hcmp, hgrp, hinst, hs, hl, hcv, he, hmr, hrv⟩ :=
    loadModel_ret_inv h
  refine ⟨?_, hs, hl, hcv, he, ?_, ?_, ?_, hrv⟩
  · rw [hmr]
    exact beq_iff_eq
  · rw [hinst, resolveTop_length]
  · rw [hgrp, groupLoop_groups_length]
  · rw [hcmp, groupLoop_comps_length, passComps_length]
    have h2 := addComponents_length f.fileComponents [] comps hcomps
    simpa using h2

/-- Witness for the confirmed claim C7 at a concrete
newer-version-status file. -/
theorem claimC7_witness :
    loadModel 10 exNewerFile false = LoadOutcome.ret (exState true) true ∧
    (((exState true).moreRecentFileVersion = true ↔
        exNewerFile.status = SUModelLoadStatus.successMoreRecent) ∧
      (exState true).surfaces = exNewerFile.fileSurfaces ∧
      (exState true).layers = exNewerFile.fileLayers ∧
      (exState true).curves = exNewerFile.fileCurves ∧
      (exState true).edges = exNewerFile.fileEdges ∧
      (exState true).instances.length = exNewerFile.fileInstances.length ∧
      (exState true).groups.length = exNewerFile.fileGroups.length ∧
      (exState true).components.length = exNewerFile.fileComponents.length ∧
      true = true) :=
  ⟨rfl, claimC7 10 exNewerFile false (exState true) true rfl⟩

/-- Claim C9 (confirmed): the material loop of `LoadModel` checks
membership before `Add`, so building the `Materials` dictionary never
throws for any input — duplicate names included — the resulting mapping
holds at most one entry per name, and the entry stored under a name is the
first extracted material carrying it. -/
theorem claimC9 (ms : List Material) :
    ∃ d, buildMaterials ms = some d ∧
      (d.map (fun kv => kv.1)).Nodup ∧
      ∀ n, lookupD d n = ms.find? (fun m => m.name == n) := by
  obtain ⟨d1, hadd, hnd, _, hnew⟩ := addMaterials_spec ms [] (by simp)
  exact ⟨d1, hadd, hnd, fun n => hnew n rfl⟩

end SketchUpNET
